import Mathlib

set_option maxHeartbeats 1000000

/-! Shallow embedding of the student tracker (src/main.cpp).
C strings are modelled as lists of characters compared by code point;
C `double` marks are modelled as rationals (the program only ever
compares and adds them); exceptions become an explicit error type. -/

abbrev Str := List Char

/-- Byte-wise three-way comparison of strings, as C `strcmp`. -/
def strcmp : Str → Str → Ordering
  | [], [] => .eq
  | [], _ :: _ => .lt
  | _ :: _, [] => .gt
  | a :: as, b :: bs => if a < b then .lt else if b < a then .gt else strcmp as bs

/-- The exception classes of main.cpp, one constructor per class. -/
inductive StudentError where
  | BufferOverflow
  | NoSecondName
  | InvalidSecondName
  | InvalidRoll
  | RollNotFound
deriving DecidableEq

instance {ε α : Type} [DecidableEq ε] [DecidableEq α] : DecidableEq (Except ε α) :=
  fun a b =>
    match a, b with
    | .error e1, .error e2 =>
      if h : e1 = e2 then isTrue (by rw [h])
      else isFalse (by intro hc; injection hc with h2; exact h h2)
    | .error _, .ok _ => isFalse (by intro hc; cases hc)
    | .ok _, .error _ => isFalse (by intro hc; cases hc)
    | .ok v1, .ok v2 =>
      if h : v1 = v2 then isTrue (by rw [h])
      else isFalse (by intro hc; injection hc with h2; exact h h2)

/-- C `isspace` in the default locale. -/
def isspaceC (c : Char) : Bool :=
  c = ' ' || c = '\t' || c = '\n' || c = '\x0b' || c = '\x0c' || c = '\r'

/-- `isValidNameChar`: letters, space or hyphen. -/
def isValidNameChar (c : Char) : Bool :=
  c.isAlpha || c = ' ' || c = '-'

/-- `isValidRollChar`: alphanumeric, '/' or '-'. -/
def isValidRollChar (c : Char) : Bool :=
  c.isAlphanum || c = '/' || c = '-'

/-- `safeStrCpy`: copy `src` into a buffer of capacity `maxlen`; throws
`BufferOverflowException` when the string (plus terminator) does not fit.
The successful copy returns the whole source string. -/
def safeStrCpy (src : Str) (maxlen : Nat) : Except StudentError Str :=
  if src.length ≥ maxlen then .error .BufferOverflow else .ok src

/-- First loop of `validateName`: scan the characters, throwing
`InvalidSecondNameException` at the first invalid character, while
counting words (`words`/`inword` exactly as in the source). -/
def nameScan : Str → Bool → Nat → Except StudentError Nat
  | [], _, words => .ok words
  | c :: rest, inword, words =>
    if ¬ isValidNameChar c then .error .InvalidSecondName
    else if ¬ isspaceC c ∧ ¬ inword then nameScan rest true (words + 1)
    else if isspaceC c then nameScan rest false words
    else nameScan rest inword words

/-- Inner loop of the second-word check of `validateName`: validate the
characters of the current word up to the next whitespace. -/
def secondWordScan : Str → Except StudentError Unit
  | [] => .ok ()
  | c :: rest =>
    if isspaceC c then .ok ()
    else if ¬ c.isAlpha ∧ c ≠ '-' then .error .InvalidSecondName
    else secondWordScan rest

/-- Second loop of `validateName`: find the start of the second word and
validate it with `secondWordScan`. -/
def findSecondWord : Str → Bool → Nat → Except StudentError Unit
  | [], _, _ => .ok ()
  | c :: rest, inword, wordCount =>
    if ¬ isspaceC c ∧ ¬ inword then
      if wordCount + 1 = 2 then secondWordScan (c :: rest)
      else findSecondWord rest true (wordCount + 1)
    else if isspaceC c then findSecondWord rest false wordCount
    else findSecondWord rest inword wordCount

/-- `validateName`: require at least two words and no invalid characters,
then check the second word. -/
def validateName (name : Str) : Except StudentError Unit :=
  if name.length = 0 then .error .NoSecondName
  else
    match nameScan name false 0 with
    | .error e => .error e
    | .ok words =>
      if words < 2 then .error .NoSecondName
      else findSecondWord name false 0

/-- `validateRoll`: non-empty and all characters valid roll characters;
both failures throw `InvalidRollException`. -/
def validateRoll (roll : Str) : Except StudentError Unit :=
  if roll.length = 0 then .error .InvalidRoll
  else if roll.all isValidRollChar then .ok () else .error .InvalidRoll

inductive Branch where
  | BR_CSE
  | BR_ECE
deriving DecidableEq

/-- The four mark components of `struct Marks`. -/
structure Marks where
  assignment : ℚ
  midterm : ℚ
  lab : ℚ
  finalexam : ℚ
deriving DecidableEq

def Marks.total (m : Marks) : ℚ :=
  m.assignment + m.midterm + m.lab + m.finalexam

/-- A `Student` record: name and roll buffers, branch, marks and level
(0 BTech, 1 MTech, 2 PhD; the derived classes only fix this tag). -/
structure Student where
  name : Str
  roll : Str
  branch : Branch
  marks : Marks
  level : Nat
deriving DecidableEq

def NAME_MAX : Nat := 64
def ROLL_MAX : Nat := 32

/-- `Student::setName`: validate, then copy into the name buffer. The
state-passing result pairs the (possibly updated) record with the
error, mirroring that a C++ throw leaves the object untouched. -/
def Student.setName (st : Student) (nm : Str) : Student × Option StudentError :=
  match validateName nm with
  | .error e => (st, some e)
  | .ok _ =>
    match safeStrCpy nm NAME_MAX with
    | .error e => (st, some e)
    | .ok s => ({ st with name := s }, none)

/-- `Student::setRoll`: validate, then copy into the roll buffer. -/
def Student.setRoll (st : Student) (r : Str) : Student × Option StudentError :=
  match validateRoll r with
  | .error e => (st, some e)
  | .ok _ =>
    match safeStrCpy r ROLL_MAX with
    | .error e => (st, some e)
    | .ok s => ({ st with roll := s }, none)

def Student.totalMarks (st : Student) : ℚ := st.marks.total

/-- A `Course` is its singly linked list of students, head first. -/
abbrev Course := List Student

def Course.empty : Course := []

/-- `Course::operator+=`: insert at the head of the list. -/
def Course.addStudent (c : Course) (s : Student) : Course := s :: c

/-- `Course::findByRoll`: scan from the head, first match wins. -/
def Course.findByRoll : Course → Str → Option Student
  | [], _ => none
  | s :: rest, r => if strcmp s.roll r = .eq then some s else Course.findByRoll rest r

/-- `Course::operator()`: find by roll or throw `RollNotFoundException`. -/
def Course.atRoll (c : Course) (r : Str) : Except StudentError Student :=
  match c.findByRoll r with
  | none => .error .RollNotFound
  | some s => .ok s

/-- `Course::exportArray`: the members in list (head-first) order. -/
def Course.exportArray (c : Course) : List Student := c

inductive MarkComponent where
  | MC_ASSIGN
  | MC_MID
  | MC_LAB
  | MC_FINAL
deriving DecidableEq

/-- `getComponent`: select one mark component. -/
def getComponent (s : Student) (mc : MarkComponent) : ℚ :=
  match mc with
  | .MC_ASSIGN => s.marks.assignment
  | .MC_MID => s.marks.midterm
  | .MC_LAB => s.marks.lab
  | .MC_FINAL => s.marks.finalexam

/-- `cmpByRollPtr`: comparator by roll (defined in the source but not
called by the sorting routines). -/
def cmpByRollPtr (a b : Student) : Ordering := strcmp a.roll b.roll

/-- `cmpByMarksPtrFactory`: compare by a mark component, with the roll
comparison as tie-breaker (defined in the source; `quickSortMarks`
never calls it). -/
def cmpByMarksPtrFactory (a b : Student) (mc : MarkComponent) : Ordering :=
  if getComponent a mc < getComponent b mc then .lt
  else if getComponent a mc > getComponent b mc then .gt
  else strcmp a.roll b.roll

def dummyStudent : Student :=
  { name := [], roll := [], branch := .BR_CSE, marks := ⟨0, 0, 0, 0⟩, level := 0 }

/-- Read `arr[k]` for a C int index; an out-of-range read returns a dummy
record (the C program only ever indexes within bounds). -/
def aget (arr : List Student) (k : Int) : Student :=
  if 0 ≤ k then arr.getD k.toNat dummyStudent else dummyStudent

/-- Write `arr[k] = v`; out of range, the array is unchanged. -/
def aset (arr : List Student) (k : Int) (v : Student) : List Student :=
  if 0 ≤ k then arr.set k.toNat v else arr

/-- `quickSwap`: exchange `arr[i]` and `arr[j]` through a temporary. -/
def quickSwap (arr : List Student) (i j : Int) : List Student :=
  aset (aset arr i (aget arr j)) j (aget arr i)

/-- The `while (cmp(arr[i], pivot) < 0) i++;` scan of the Hoare partition,
for an abstract strictly-below-pivot test `ltp`.  The `i ≤ hi` bound makes
the read total; the C scans provably never leave `[lo, hi]`. -/
def scanI (arr : List Student) (ltp : Student → Bool) (hi : Int) (i : Int) : Int :=
  if i ≤ hi ∧ ltp (aget arr i) then scanI arr ltp hi (i + 1) else i
termination_by (hi + 1 - i).toNat
decreasing_by omega

/-- The `while (cmp(arr[j], pivot) > 0) j--;` scan, for an abstract
strictly-above-pivot test `gtp`. -/
def scanJ (arr : List Student) (gtp : Student → Bool) (lo : Int) (j : Int) : Int :=
  if lo ≤ j ∧ gtp (aget arr j) then scanJ arr gtp lo (j - 1) else j
termination_by (j + 1 - lo).toNat
decreasing_by omega

theorem scanI_ge (arr : List Student) (ltp : Student → Bool) (hi : Int) :
    ∀ i, i ≤ scanI arr ltp hi i := by
  intro i
  induction i using scanI.induct arr ltp hi with
  | case1 i h ih => rw [scanI.eq_def, if_pos h]; omega
  | case2 i h => rw [scanI.eq_def, if_neg h]

theorem scanJ_le (arr : List Student) (gtp : Student → Bool) (lo : Int) :
    ∀ j, scanJ arr gtp lo j ≤ j := by
  intro j
  induction j using scanJ.induct arr gtp lo with
  | case1 j h ih => rw [scanJ.eq_def, if_pos h]; omega
  | case2 j h => rw [scanJ.eq_def, if_neg h]

theorem scanI_le (arr : List Student) (ltp : Student → Bool) (hi : Int) :
    ∀ i, i ≤ hi + 1 → scanI arr ltp hi i ≤ hi + 1 := by
  intro i
  induction i using scanI.induct arr ltp hi with
  | case1 i h ih => intro _; rw [scanI.eq_def, if_pos h]; exact ih (by omega)
  | case2 i h => intro hle; rw [scanI.eq_def, if_neg h]; exact hle

theorem scanJ_ge (arr : List Student) (gtp : Student → Bool) (lo : Int) :
    ∀ j, lo - 1 ≤ j → lo - 1 ≤ scanJ arr gtp lo j := by
  intro j
  induction j using scanJ.induct arr gtp lo with
  | case1 j h ih => intro _; rw [scanJ.eq_def, if_pos h]; exact ih (by omega)
  | case2 j h => intro hle; rw [scanJ.eq_def, if_neg h]; exact hle

theorem scanI_min (arr : List Student) (ltp : Student → Bool) (hi : Int) :
    ∀ i m, i ≤ m → ltp (aget arr m) = false → scanI arr ltp hi i ≤ m := by
  intro i
  induction i using scanI.induct arr ltp hi with
  | case1 i h ih =>
    intro m him hm
    rw [scanI.eq_def, if_pos h]
    rcases eq_or_lt_of_le him with heq | hlt
    · subst heq; rw [h.2] at hm; cases hm
    · exact ih m (by omega) hm
  | case2 i h => intro m him _; rw [scanI.eq_def, if_neg h]; exact him

theorem scanJ_max (arr : List Student) (gtp : Student → Bool) (lo : Int) :
    ∀ j m, m ≤ j → gtp (aget arr m) = false → m ≤ scanJ arr gtp lo j := by
  intro j
  induction j using scanJ.induct arr gtp lo with
  | case1 j h ih =>
    intro m hmj hm
    rw [scanJ.eq_def, if_pos h]
    rcases eq_or_lt_of_le hmj with heq | hlt
    · subst heq; rw [h.2] at hm; cases hm
    · exact ih m (by omega) hm
  | case2 j h => intro m hmj _; rw [scanJ.eq_def, if_neg h]; exact hmj

theorem scanI_skipped (arr : List Student) (ltp : Student → Bool) (hi : Int) :
    ∀ i k, i ≤ k → k < scanI arr ltp hi i → ltp (aget arr k) = true := by
  intro i
  induction i using scanI.induct arr ltp hi with
  | case1 i h ih =>
    intro k hik hk
    rcases eq_or_lt_of_le hik with heq | hlt
    · subst heq; exact h.2
    · rw [scanI.eq_def, if_pos h] at hk; exact ih k (by omega) hk
  | case2 i h =>
    intro k hik hk
    rw [scanI.eq_def, if_neg h] at hk; omega

theorem scanJ_skipped (arr : List Student) (gtp : Student → Bool) (lo : Int) :
    ∀ j k, k ≤ j → scanJ arr gtp lo j < k → gtp (aget arr k) = true := by
  intro j
  induction j using scanJ.induct arr gtp lo with
  | case1 j h ih =>
    intro k hkj hk
    rcases eq_or_lt_of_le hkj with heq | hlt
    · subst heq; exact h.2
    · rw [scanJ.eq_def, if_pos h] at hk; exact ih k (by omega) hk
  | case2 j h =>
    intro k hkj hk
    rw [scanJ.eq_def, if_neg h] at hk; omega

theorem scanI_stop (arr : List Student) (ltp : Student → Bool) (hi : Int) :
    ∀ i, scanI arr ltp hi i ≤ hi → ltp (aget arr (scanI arr ltp hi i)) = false := by
  intro i
  induction i using scanI.induct arr ltp hi with
  | case1 i h ih => rw [scanI.eq_def, if_pos h]; exact ih
  | case2 i h =>
    intro hle
    rw [scanI.eq_def, if_neg h] at hle ⊢
    cases hb : ltp (aget arr i)
    · rfl
    · exact absurd ⟨hle, hb⟩ h

theorem scanJ_stop (arr : List Student) (gtp : Student → Bool) (lo : Int) :
    ∀ j, lo ≤ scanJ arr gtp lo j → gtp (aget arr (scanJ arr gtp lo j)) = false := by
  intro j
  induction j using scanJ.induct arr gtp lo with
  | case1 j h ih => rw [scanJ.eq_def, if_pos h]; exact ih
  | case2 j h =>
    intro hle
    rw [scanJ.eq_def, if_neg h] at hle ⊢
    cases hb : gtp (aget arr j)
    · rfl
    · exact absurd ⟨hle, hb⟩ h

theorem strcmp_self : ∀ a : Str, strcmp a a = .eq
  | [] => rfl
  | c :: as => by
    rw [strcmp, if_neg (lt_irrefl c), if_neg (lt_irrefl c)]
    exact strcmp_self as

/-- The `while (i <= j) { ...scan...; if (i <= j) swap, i++, j--; }`
partition loop shared (up to the pivot test) by `quickSortRoll` and
`quickSortMarks`.  Returns the array together with the final `i` and `j`. -/
def partLoop (ltp gtp : Student → Bool) (arr : List Student) (lo hi i j : Int) :
    List Student × Int × Int :=
  if i ≤ j then
    if scanI arr ltp hi i ≤ scanJ arr gtp lo j then
      partLoop ltp gtp (quickSwap arr (scanI arr ltp hi i) (scanJ arr gtp lo j)) lo hi
        (scanI arr ltp hi i + 1) (scanJ arr gtp lo j - 1)
    else (arr, scanI arr ltp hi i, scanJ arr gtp lo j)
  else (arr, i, j)
termination_by (j - i + 2).toNat
decreasing_by
  have h1 := scanI_ge arr ltp hi i
  have h2 := scanJ_le arr gtp lo j
  omega

theorem partLoop_mono (ltp gtp : Student → Bool) :
    ∀ arr lo hi i j, i ≤ (partLoop ltp gtp arr lo hi i j).2.1 ∧
      (partLoop ltp gtp arr lo hi i j).2.2 ≤ j ∧
      (partLoop ltp gtp arr lo hi i j).2.2 < (partLoop ltp gtp arr lo hi i j).2.1 := by
  intro arr lo hi i j
  induction arr, lo, hi, i, j using partLoop.induct ltp gtp with
  | case1 arr lo hi i j hij hle ih =>
    rw [partLoop.eq_def, if_pos hij, if_pos hle]
    have h1 := scanI_ge arr ltp hi i
    have h2 := scanJ_le arr gtp lo j
    omega
  | case2 arr lo hi i j hij hle =>
    rw [partLoop.eq_def, if_pos hij, if_neg hle]
    have h1 := scanI_ge arr ltp hi i
    have h2 := scanJ_le arr gtp lo j
    dsimp only
    omega
  | case3 arr lo hi i j hij =>
    rw [partLoop.eq_def, if_neg hij]
    dsimp only
    omega

theorem partLoop_progress (ltp gtp : Student → Bool) (arr : List Student) (lo hi m : Int)
    (h1 : lo ≤ m) (h2 : m ≤ hi)
    (h3 : ltp (aget arr m) = false) (h4 : gtp (aget arr m) = false) :
    lo + 1 ≤ (partLoop ltp gtp arr lo hi lo hi).2.1 ∧
      (partLoop ltp gtp arr lo hi lo hi).2.2 ≤ hi - 1 := by
  have hii := scanI_min arr ltp hi lo m h1 h3
  have hjj := scanJ_max arr gtp lo hi m h2 h4
  have hgi := scanI_ge arr ltp hi lo
  have hlj := scanJ_le arr gtp lo hi
  rw [partLoop.eq_def, if_pos (by omega : lo ≤ hi), if_pos (by omega)]
  have hmono := partLoop_mono ltp gtp
    (quickSwap arr (scanI arr ltp hi lo) (scanJ arr gtp lo hi)) lo hi
    (scanI arr ltp hi lo + 1) (scanJ arr gtp lo hi - 1)
  omega

/-- The strictly-below-pivot test of `quickSortRoll` for pivot roll `p`. -/
def rollLtp (p : Str) : Student → Bool := fun s => decide (strcmp s.roll p = .lt)

/-- The strictly-above-pivot test of `quickSortRoll` for pivot roll `p`. -/
def rollGtp (p : Str) : Student → Bool := fun s => decide (strcmp s.roll p = .gt)

/-- `quickSortRoll`: in-place quicksort of a snapshot by roll string
(Hoare partition, middle-element pivot, recursion on both halves). -/
def quickSortRoll (arr : List Student) (lo hi : Int) : List Student :=
  if lo ≥ hi then arr
  else
    let res := partLoop (rollLtp (aget arr ((lo + hi) / 2)).roll)
        (rollGtp (aget arr ((lo + hi) / 2)).roll) arr lo hi lo hi
    let arr2 := if hj : lo < res.2.2 then quickSortRoll res.1 lo res.2.2 else res.1
    if hi2 : res.2.1 < hi then quickSortRoll arr2 res.2.1 hi else arr2
termination_by (hi - lo).toNat
decreasing_by
  · have hprog := partLoop_progress (rollLtp (aget arr ((lo + hi) / 2)).roll)
      (rollGtp (aget arr ((lo + hi) / 2)).roll)
      arr lo hi ((lo + hi) / 2) (by omega) (by omega)
      (by simp [rollLtp, strcmp_self]) (by simp [rollGtp, strcmp_self])
    omega
  · have hprog := partLoop_progress (rollLtp (aget arr ((lo + hi) / 2)).roll)
      (rollGtp (aget arr ((lo + hi) / 2)).roll)
      arr lo hi ((lo + hi) / 2) (by omega) (by omega)
      (by simp [rollLtp, strcmp_self]) (by simp [rollGtp, strcmp_self])
    omega

/-- The strictly-below-pivot test of `quickSortMarks` for pivot value `pv`. -/
def marksLtp (mc : MarkComponent) (pv : ℚ) : Student → Bool :=
  fun s => decide (getComponent s mc < pv)

/-- The strictly-above-pivot test of `quickSortMarks` for pivot value `pv`. -/
def marksGtp (mc : MarkComponent) (pv : ℚ) : Student → Bool :=
  fun s => decide (getComponent s mc > pv)

/-- `quickSortMarks`: in-place quicksort of a snapshot by one mark
component (same partition scheme; no tie-breaking comparison). -/
def quickSortMarks (arr : List Student) (lo hi : Int) (mc : MarkComponent) : List Student :=
  if lo ≥ hi then arr
  else
    let res := partLoop (marksLtp mc (getComponent (aget arr ((lo + hi) / 2)) mc))
        (marksGtp mc (getComponent (aget arr ((lo + hi) / 2)) mc)) arr lo hi lo hi
    let arr2 := if hj : lo < res.2.2 then quickSortMarks res.1 lo res.2.2 mc else res.1
    if hi2 : res.2.1 < hi then quickSortMarks arr2 res.2.1 hi mc else arr2
termination_by (hi - lo).toNat
decreasing_by
  · have hprog := partLoop_progress (marksLtp mc (getComponent (aget arr ((lo + hi) / 2)) mc))
      (marksGtp mc (getComponent (aget arr ((lo + hi) / 2)) mc))
      arr lo hi ((lo + hi) / 2) (by omega) (by omega)
      (by simp [marksLtp]) (by simp [marksGtp])
    omega
  · have hprog := partLoop_progress (marksLtp mc (getComponent (aget arr ((lo + hi) / 2)) mc))
      (marksGtp mc (getComponent (aget arr ((lo + hi) / 2)) mc))
      arr lo hi ((lo + hi) / 2) (by omega) (by omega)
      (by simp [marksLtp]) (by simp [marksGtp])
    omega

/-- `sortByNameUsingTrie` needs the trie; the comparator sorts are wrapped
for the snapshot exported from a course. -/
def sortByRoll (c : Course) : List Student :=
  quickSortRoll c.exportArray 0 ((c.exportArray.length : Int) - 1)

def sortByMarks (c : Course) (mc : MarkComponent) : List Student :=
  quickSortMarks c.exportArray 0 ((c.exportArray.length : Int) - 1) mc

theorem length_aset (arr : List Student) (k : Int) (v : Student) :
    (aset arr k v).length = arr.length := by
  unfold aset; split
  · exact List.length_set arr k.toNat v
  · rfl

theorem length_quickSwap (arr : List Student) (i j : Int) :
    (quickSwap arr i j).length = arr.length := by
  unfold quickSwap; rw [length_aset, length_aset]

theorem aget_aset_self (arr : List Student) (k : Int) (v : Student)
    (h0 : 0 ≤ k) (hk : k < (arr.length : Int)) : aget (aset arr k v) k = v := by
  unfold aget aset
  rw [if_pos h0, if_pos h0]
  have hlt : k.toNat < arr.length := by omega
  simp [List.getD_eq_getElem?_getD, List.getElem?_set, hlt]

theorem aget_aset_ne (arr : List Student) (k : Int) (v : Student) (m : Int)
    (hne : k ≠ m) : aget (aset arr k v) m = aget arr m := by
  unfold aget aset
  by_cases h0k : 0 ≤ k
  · rw [if_pos h0k]
    by_cases h0m : 0 ≤ m
    · rw [if_pos h0m, if_pos h0m]
      have hne' : k.toNat ≠ m.toNat := by omega
      simp [List.getD_eq_getElem?_getD, List.getElem?_set, hne']
    · rw [if_neg h0m, if_neg h0m]
  · rw [if_neg h0k]

theorem cons_set_perm {α : Type} (d : α) :
    ∀ (l : List α) (j : Nat) (a : α), j < l.length →
      ((l.getD j d) :: (l.set j a)).Perm (a :: l)
  | b :: t, 0, a, _ => by
    simpa using List.Perm.swap a b t
  | b :: t, j + 1, a, h => by
    simp only [List.getD_cons_succ, List.set_cons_succ]
    refine List.Perm.trans (List.Perm.swap b (t.getD j d) (t.set j a)) ?_
    refine List.Perm.trans ((cons_set_perm d t j a (by simpa using h)).cons b) ?_
    exact List.Perm.swap a b t

theorem swapNat_perm {α : Type} (d : α) :
    ∀ (l : List α) (i j : Nat), i < l.length → j < l.length →
      ((l.set i (l.getD j d)).set j (l.getD i d)).Perm l
  | b :: t, 0, 0, _, _ => by simp
  | b :: t, 0, j + 1, _, hj => by
    simp only [List.getD_cons_zero, List.getD_cons_succ, List.set_cons_zero,
      List.set_cons_succ]
    exact cons_set_perm d t j b (by simpa using hj)
  | b :: t, i + 1, 0, hi, _ => by
    simp only [List.getD_cons_zero, List.getD_cons_succ, List.set_cons_zero,
      List.set_cons_succ]
    exact cons_set_perm d t i b (by simpa using hi)
  | b :: t, i + 1, j + 1, hi, hj => by
    simp only [List.getD_cons_succ, List.set_cons_succ]
    exact (swapNat_perm d t i j (by simpa using hi) (by simpa using hj)).cons b

theorem quickSwap_perm (arr : List Student) (i j : Int)
    (h0i : 0 ≤ i) (hii : i < (arr.length : Int)) (h0j : 0 ≤ j) (hjj : j < (arr.length : Int)) :
    (quickSwap arr i j).Perm arr := by
  unfold quickSwap aget aset
  rw [if_pos h0i, if_pos h0j, if_pos h0i, if_pos h0j]
  exact swapNat_perm dummyStudent arr i.toNat j.toNat (by omega) (by omega)

theorem aget_quickSwap_right (arr : List Student) (i j : Int)
    (h0i : 0 ≤ i) (hii : i < (arr.length : Int)) (h0j : 0 ≤ j) (hjj : j < (arr.length : Int)) :
    aget (quickSwap arr i j) j = aget arr i := by
  unfold quickSwap
  rw [aget_aset_self _ j _ h0j (by rw [length_aset]; exact_mod_cast hjj)]

theorem aget_quickSwap_left (arr : List Student) (i j : Int)
    (h0i : 0 ≤ i) (hii : i < (arr.length : Int)) (h0j : 0 ≤ j) (hjj : j < (arr.length : Int)) :
    aget (quickSwap arr i j) i = aget arr j := by
  by_cases hij : i = j
  · subst hij
    exact aget_quickSwap_right arr i i h0i hii h0i hii
  · unfold quickSwap
    rw [aget_aset_ne _ j _ i (fun h => hij h.symm), aget_aset_self _ i _ h0i hii]

theorem aget_quickSwap_other (arr : List Student) (i j k : Int)
    (hki : k ≠ i) (hkj : k ≠ j) : aget (quickSwap arr i j) k = aget arr k := by
  unfold quickSwap
  rw [aget_aset_ne _ j _ k (fun h => hkj h.symm), aget_aset_ne _ i _ k (fun h => hki h.symm)]

theorem strcmp_eq_iff : ∀ a b : Str, strcmp a b = .eq ↔ a = b
  | [], [] => by simp [strcmp]
  | [], _ :: _ => by simp [strcmp]
  | _ :: _, [] => by simp [strcmp]
  | a :: as, b :: bs => by
    rw [strcmp]
    rcases lt_trichotomy a b with h | h | h
    · rw [if_pos h]
      simp [h.ne]
    · subst h
      rw [if_neg (lt_irrefl a), if_neg (lt_irrefl a)]
      rw [strcmp_eq_iff as bs]
      simp
    · rw [if_neg (lt_asymm h), if_pos h]
      simp [h.ne']

theorem strcmp_lt_gt : ∀ a b : Str, strcmp a b = .lt ↔ strcmp b a = .gt
  | [], [] => by simp [strcmp]
  | [], _ :: _ => by simp [strcmp]
  | _ :: _, [] => by simp [strcmp]
  | a :: as, b :: bs => by
    rw [strcmp, strcmp]
    rcases lt_trichotomy a b with h | h | h
    · rw [if_pos h, if_neg (lt_asymm h), if_pos h]
      simp
    · subst h
      rw [if_neg (lt_irrefl a), if_neg (lt_irrefl a), if_neg (lt_irrefl a),
        if_neg (lt_irrefl a)]
      exact strcmp_lt_gt as bs
    · rw [if_neg (lt_asymm h), if_pos h, if_pos h]
      simp

theorem strcmp_lt_trans : ∀ a b c : Str, strcmp a b = .lt → strcmp b c = .lt →
    strcmp a c = .lt := by
  intro a
  induction a with
  | nil =>
    intro b c h1 h2
    cases c with
    | nil =>
      cases b with
      | nil => simp [strcmp] at h2
      | cons y ys => simp [strcmp] at h2
    | cons z zs => simp [strcmp]
  | cons x xs ih =>
    intro b c h1 h2
    cases b with
    | nil => simp [strcmp] at h1
    | cons y ys =>
      cases c with
      | nil => simp [strcmp] at h2
      | cons z zs =>
        rw [strcmp] at h1 h2 ⊢
        rcases lt_trichotomy x y with hxy | hxy | hxy
        · rcases lt_trichotomy y z with hyz | hyz | hyz
          · rw [if_pos (lt_trans hxy hyz)]
          · subst hyz
            rw [if_pos hxy]
          · rw [if_neg (lt_asymm hyz), if_pos hyz] at h2
            cases h2
        · subst hxy
          rcases lt_trichotomy x z with hxz | hxz | hxz
          · rw [if_pos hxz]
          · subst hxz
            rw [if_neg (lt_irrefl x), if_neg (lt_irrefl x)] at h1 h2 ⊢
            exact ih ys zs h1 h2
          · rw [if_neg (lt_asymm hxz), if_pos hxz] at h2
            cases h2
        · rw [if_neg (lt_asymm hxy), if_pos hxy] at h1
          cases h1

theorem strcmp_le_trans {a b c : Str} (h1 : strcmp a b ≠ .gt) (h2 : strcmp b c ≠ .gt) :
    strcmp a c ≠ .gt := by
  cases hab : strcmp a b with
  | gt => exact absurd hab h1
  | eq =>
    rw [(strcmp_eq_iff a b).mp hab]
    exact h2
  | lt =>
    cases hbc : strcmp b c with
    | gt => exact absurd hbc h2
    | eq =>
      rw [← (strcmp_eq_iff b c).mp hbc]
      rw [hab]
      simp
    | lt =>
      rw [strcmp_lt_trans a b c hab hbc]
      simp

theorem strcmp_le_of_not_lt {a b : Str} (h : strcmp a b ≠ .lt) : strcmp b a ≠ .gt := by
  cases hab : strcmp a b with
  | lt => exact absurd hab h
  | eq =>
    rw [← (strcmp_eq_iff a b).mp hab, strcmp_self]
    simp
  | gt =>
    rw [(strcmp_lt_gt b a).mpr hab]
    simp

theorem strcmp_le_of_lt {a b : Str} (h : strcmp a b = .lt) : strcmp a b ≠ .gt := by
  rw [h]; simp

theorem strcmp_eq_of_not_lt_not_gt {a b : Str} (h1 : strcmp a b ≠ .lt)
    (h2 : strcmp a b ≠ .gt) : a = b := by
  cases hab : strcmp a b with
  | lt => exact absurd hab h1
  | gt => exact absurd hab h2
  | eq => exact (strcmp_eq_iff a b).mp hab

theorem partLoop_spec (ltp gtp : Student → Bool)
    (hex : ∀ s, ltp s = true → gtp s = false)
    (hex2 : ∀ s, gtp s = true → ltp s = false) :
    ∀ arr lo hi i j, 0 ≤ lo → hi < (arr.length : Int) → lo ≤ i → j ≤ hi →
    (∀ k, lo ≤ k → k < i → gtp (aget arr k) = false) →
    (∀ k, j < k → k ≤ hi → ltp (aget arr k) = false) →
    (partLoop ltp gtp arr lo hi i j).1.length = arr.length ∧
    (partLoop ltp gtp arr lo hi i j).1.Perm arr ∧
    (∀ k, k < lo ∨ hi < k → aget (partLoop ltp gtp arr lo hi i j).1 k = aget arr k) ∧
    (∀ k, lo ≤ k → k ≤ hi → ∃ m, lo ≤ m ∧ m ≤ hi ∧
      aget (partLoop ltp gtp arr lo hi i j).1 k = aget arr m) ∧
    (∀ k, lo ≤ k → k < (partLoop ltp gtp arr lo hi i j).2.1 →
      gtp (aget (partLoop ltp gtp arr lo hi i j).1 k) = false) ∧
    (∀ k, (partLoop ltp gtp arr lo hi i j).2.2 < k → k ≤ hi →
      ltp (aget (partLoop ltp gtp arr lo hi i j).1 k) = false) := by
  intro arr lo hi i j
  induction arr, lo, hi, i, j using partLoop.induct ltp gtp with
  | case1 arr lo hi i j hij hle ih =>
    intro h0lo hhilen hloi hjhi hpre hsuf
    have hgi := scanI_ge arr ltp hi i
    have hlj := scanJ_le arr gtp lo j
    have hi'lo : lo ≤ scanI arr ltp hi i := le_trans hloi hgi
    have hj'hi : scanJ arr gtp lo j ≤ hi := le_trans hlj hjhi
    have hi'hi : scanI arr ltp hi i ≤ hi := le_trans hle hj'hi
    have hj'lo : lo ≤ scanJ arr gtp lo j := le_trans hi'lo hle
    have hstopI : ltp (aget arr (scanI arr ltp hi i)) = false :=
      scanI_stop arr ltp hi i hi'hi
    have hstopJ : gtp (aget arr (scanJ arr gtp lo j)) = false :=
      scanJ_stop arr gtp lo j hj'lo
    rw [partLoop.eq_def, if_pos hij, if_pos hle]
    have hswlen := length_quickSwap arr (scanI arr ltp hi i) (scanJ arr gtp lo j)
    have hlen' : hi < ((quickSwap arr (scanI arr ltp hi i) (scanJ arr gtp lo j)).length : Int) := by
      rw [hswlen]; exact hhilen
    have hpre' : ∀ k, lo ≤ k → k < scanI arr ltp hi i + 1 →
        gtp (aget (quickSwap arr (scanI arr ltp hi i) (scanJ arr gtp lo j)) k) = false := by
      intro k hk1 hk2
      by_cases hki : k = scanI arr ltp hi i
      · subst hki
        rw [aget_quickSwap_left arr _ _ (by omega) (by omega) (by omega) (by omega)]
        exact hstopJ
      · have hkj : k ≠ scanJ arr gtp lo j := by omega
        rw [aget_quickSwap_other arr _ _ k hki hkj]
        by_cases hkilt : k < i
        · exact hpre k hk1 hkilt
        · exact hex _ (scanI_skipped arr ltp hi i k (by omega) (by omega))
    have hsuf' : ∀ k, scanJ arr gtp lo j - 1 < k → k ≤ hi →
        ltp (aget (quickSwap arr (scanI arr ltp hi i) (scanJ arr gtp lo j)) k) = false := by
      intro k hk1 hk2
      by_cases hkj : k = scanJ arr gtp lo j
      · subst hkj
        rw [aget_quickSwap_right arr _ _ (by omega) (by omega) (by omega) (by omega)]
        exact hstopI
      · have hki : k ≠ scanI arr ltp hi i := by omega
        rw [aget_quickSwap_other arr _ _ k hki hkj]
        by_cases hkgt : j < k
        · exact hsuf k hkgt hk2
        · exact hex2 _ (scanJ_skipped arr gtp lo j k (by omega) (by omega))
    obtain ⟨IH1, IH2, IH3, IH4, IH5, IH6⟩ := ih h0lo hlen' (by omega) (by omega) hpre' hsuf'
    refine ⟨IH1.trans hswlen,
      IH2.trans (quickSwap_perm arr _ _ (by omega) (by omega) (by omega) (by omega)),
      ?_, ?_, IH5, IH6⟩
    · intro k hk
      rw [IH3 k hk]
      exact aget_quickSwap_other arr _ _ k (by omega) (by omega)
    · intro k hk1 hk2
      obtain ⟨m, hm1, hm2, hm3⟩ := IH4 k hk1 hk2
      by_cases hmj : m = scanJ arr gtp lo j
      · subst hmj
        rw [aget_quickSwap_right arr _ _ (by omega) (by omega) (by omega) (by omega)] at hm3
        exact ⟨scanI arr ltp hi i, by omega, by omega, hm3⟩
      · by_cases hmi : m = scanI arr ltp hi i
        · subst hmi
          rw [aget_quickSwap_left arr _ _ (by omega) (by omega) (by omega) (by omega)] at hm3
          exact ⟨scanJ arr gtp lo j, by omega, by omega, hm3⟩
        · rw [aget_quickSwap_other arr _ _ m hmi hmj] at hm3
          exact ⟨m, hm1, hm2, hm3⟩
  | case2 arr lo hi i j hij hle =>
    intro h0lo hhilen hloi hjhi hpre hsuf
    have hgi := scanI_ge arr ltp hi i
    have hlj := scanJ_le arr gtp lo j
    rw [partLoop.eq_def, if_pos hij, if_neg hle]
    dsimp only
    refine ⟨rfl, List.Perm.refl arr, fun k _ => rfl, fun k hk1 hk2 => ⟨k, hk1, hk2, rfl⟩, ?_, ?_⟩
    · intro k hk1 hk2
      by_cases hki : k < i
      · exact hpre k hk1 hki
      · exact hex _ (scanI_skipped arr ltp hi i k (by omega) hk2)
    · intro k hk1 hk2
      by_cases hkj : j < k
      · exact hsuf k hkj hk2
      · exact hex2 _ (scanJ_skipped arr gtp lo j k (by omega) hk1)
  | case3 arr lo hi i j hij =>
    intro h0lo hhilen hloi hjhi hpre hsuf
    rw [partLoop.eq_def, if_neg hij]
    dsimp only
    exact ⟨rfl, List.Perm.refl arr, fun k _ => rfl, fun k hk1 hk2 => ⟨k, hk1, hk2, rfl⟩,
      hpre, hsuf⟩

theorem partLoop_length (ltp gtp : Student → Bool) :
    ∀ arr lo hi i j, (partLoop ltp gtp arr lo hi i j).1.length = arr.length := by
  intro arr lo hi i j
  induction arr, lo, hi, i, j using partLoop.induct ltp gtp with
  | case1 arr lo hi i j hij hle ih =>
    rw [partLoop.eq_def, if_pos hij, if_pos hle]
    rw [ih, length_quickSwap]
  | case2 arr lo hi i j hij hle =>
    rw [partLoop.eq_def, if_pos hij, if_neg hle]
  | case3 arr lo hi i j hij =>
    rw [partLoop.eq_def, if_neg hij]

theorem quickSortRoll_unfold (arr : List Student) (lo hi : Int) (h : ¬ lo ≥ hi)
    (P : List Student × Int × Int)
    (hP : P = partLoop (rollLtp (aget arr ((lo + hi) / 2)).roll)
      (rollGtp (aget arr ((lo + hi) / 2)).roll) arr lo hi lo hi) :
    quickSortRoll arr lo hi =
      if P.2.1 < hi then
        quickSortRoll (if lo < P.2.2 then quickSortRoll P.1 lo P.2.2 else P.1) P.2.1 hi
      else (if lo < P.2.2 then quickSortRoll P.1 lo P.2.2 else P.1) := by
  subst hP
  rw [quickSortRoll.eq_def, if_neg h]
  simp only [dite_eq_ite]

theorem quickSortMarks_unfold (arr : List Student) (lo hi : Int) (mc : MarkComponent)
    (h : ¬ lo ≥ hi) (P : List Student × Int × Int)
    (hP : P = partLoop (marksLtp mc (getComponent (aget arr ((lo + hi) / 2)) mc))
      (marksGtp mc (getComponent (aget arr ((lo + hi) / 2)) mc)) arr lo hi lo hi) :
    quickSortMarks arr lo hi mc =
      if P.2.1 < hi then
        quickSortMarks (if lo < P.2.2 then quickSortMarks P.1 lo P.2.2 mc else P.1) P.2.1 hi mc
      else (if lo < P.2.2 then quickSortMarks P.1 lo P.2.2 mc else P.1) := by
  subst hP
  rw [quickSortMarks.eq_def, if_neg h]
  simp only [dite_eq_ite]

theorem quickSortRoll_base (arr : List Student) (lo hi : Int) (h : lo ≥ hi) :
    quickSortRoll arr lo hi = arr := by
  rw [quickSortRoll.eq_def, if_pos h]

theorem quickSortMarks_base (arr : List Student) (lo hi : Int) (mc : MarkComponent)
    (h : lo ≥ hi) : quickSortMarks arr lo hi mc = arr := by
  rw [quickSortMarks.eq_def, if_pos h]

theorem quickSortRoll_len_fuel : ∀ (n : Nat), ∀ (arr : List Student) (lo hi : Int),
    (hi - lo).toNat ≤ n → (quickSortRoll arr lo hi).length = arr.length := by
  intro n
  induction n with
  | zero =>
    intro arr lo hi hfuel
    rw [quickSortRoll_base arr lo hi (by omega)]
  | succ n ihn =>
    intro arr lo hi hfuel
    by_cases hlh : lo ≥ hi
    · rw [quickSortRoll_base arr lo hi hlh]
    · have hprog := partLoop_progress (rollLtp (aget arr ((lo + hi) / 2)).roll)
        (rollGtp (aget arr ((lo + hi) / 2)).roll) arr lo hi ((lo + hi) / 2)
        (by omega) (by omega) (by simp [rollLtp, strcmp_self]) (by simp [rollGtp, strcmp_self])
      have hplen := partLoop_length (rollLtp (aget arr ((lo + hi) / 2)).roll)
        (rollGtp (aget arr ((lo + hi) / 2)).roll) arr lo hi lo hi
      rw [quickSortRoll_unfold arr lo hi hlh _ rfl]
      by_cases hj : lo < (partLoop (rollLtp (aget arr ((lo + hi) / 2)).roll)
          (rollGtp (aget arr ((lo + hi) / 2)).roll) arr lo hi lo hi).2.2
      · rw [if_pos hj]
        by_cases hi2 : (partLoop (rollLtp (aget arr ((lo + hi) / 2)).roll)
            (rollGtp (aget arr ((lo + hi) / 2)).roll) arr lo hi lo hi).2.1 < hi
        · rw [if_pos hi2, ihn _ _ _ (by omega), ihn _ _ _ (by omega), hplen]
        · rw [if_neg hi2, ihn _ _ _ (by omega), hplen]
      · rw [if_neg hj]
        by_cases hi2 : (partLoop (rollLtp (aget arr ((lo + hi) / 2)).roll)
            (rollGtp (aget arr ((lo + hi) / 2)).roll) arr lo hi lo hi).2.1 < hi
        · rw [if_pos hi2, ihn _ _ _ (by omega), hplen]
        · rw [if_neg hi2, hplen]

theorem quickSortRoll_length (arr : List Student) (lo hi : Int) :
    (quickSortRoll arr lo hi).length = arr.length :=
  quickSortRoll_len_fuel (hi - lo).toNat arr lo hi (le_refl _)

theorem quickSortMarks_len_fuel : ∀ (n : Nat), ∀ (arr : List Student) (lo hi : Int)
    (mc : MarkComponent),
    (hi - lo).toNat ≤ n → (quickSortMarks arr lo hi mc).length = arr.length := by
  intro n
  induction n with
  | zero =>
    intro arr lo hi mc hfuel
    rw [quickSortMarks_base arr lo hi mc (by omega)]
  | succ n ihn =>
    intro arr lo hi mc hfuel
    by_cases hlh : lo ≥ hi
    · rw [quickSortMarks_base arr lo hi mc hlh]
    · have hprog := partLoop_progress (marksLtp mc (getComponent (aget arr ((lo + hi) / 2)) mc))
        (marksGtp mc (getComponent (aget arr ((lo + hi) / 2)) mc)) arr lo hi ((lo + hi) / 2)
        (by omega) (by omega) (by simp [marksLtp]) (by simp [marksGtp])
      have hplen := partLoop_length (marksLtp mc (getComponent (aget arr ((lo + hi) / 2)) mc))
        (marksGtp mc (getComponent (aget arr ((lo + hi) / 2)) mc)) arr lo hi lo hi
      rw [quickSortMarks_unfold arr lo hi mc hlh _ rfl]
      by_cases hj : lo < (partLoop (marksLtp mc (getComponent (aget arr ((lo + hi) / 2)) mc))
          (marksGtp mc (getComponent (aget arr ((lo + hi) / 2)) mc)) arr lo hi lo hi).2.2
      · rw [if_pos hj]
        by_cases hi2 : (partLoop (marksLtp mc (getComponent (aget arr ((lo + hi) / 2)) mc))
            (marksGtp mc (getComponent (aget arr ((lo + hi) / 2)) mc)) arr lo hi lo hi).2.1 < hi
        · rw [if_pos hi2, ihn _ _ _ _ (by omega), ihn _ _ _ _ (by omega), hplen]
        · rw [if_neg hi2, ihn _ _ _ _ (by omega), hplen]
      · rw [if_neg hj]
        by_cases hi2 : (partLoop (marksLtp mc (getComponent (aget arr ((lo + hi) / 2)) mc))
            (marksGtp mc (getComponent (aget arr ((lo + hi) / 2)) mc)) arr lo hi lo hi).2.1 < hi
        · rw [if_pos hi2, ihn _ _ _ _ (by omega), hplen]
        · rw [if_neg hi2, hplen]

theorem quickSortMarks_length (arr : List Student) (lo hi : Int) (mc : MarkComponent) :
    (quickSortMarks arr lo hi mc).length = arr.length :=
  quickSortMarks_len_fuel (hi - lo).toNat arr lo hi mc (le_refl _)

theorem rollLtp_gtp_excl (p : Str) : ∀ s, rollLtp p s = true → rollGtp p s = false := by
  intro s h
  simp only [rollLtp, decide_eq_true_eq] at h
  simp only [rollGtp, decide_eq_false_iff_not]
  rw [h]
  simp

theorem rollGtp_ltp_excl (p : Str) : ∀ s, rollGtp p s = true → rollLtp p s = false := by
  intro s h
  simp only [rollGtp, decide_eq_true_eq] at h
  simp only [rollLtp, decide_eq_false_iff_not]
  rw [h]
  simp

theorem rollGtp_false_iff (p : Str) (s : Student) :
    rollGtp p s = false ↔ strcmp s.roll p ≠ .gt := by
  simp [rollGtp]

theorem rollLtp_false_iff (p : Str) (s : Student) :
    rollLtp p s = false ↔ strcmp s.roll p ≠ .lt := by
  simp [rollLtp]

theorem qsr_bundle_trivial (arr : List Student) (lo hi : Int) (h : lo ≥ hi) :
    (quickSortRoll arr lo hi).Perm arr ∧
    (∀ k, k < lo ∨ hi < k → aget (quickSortRoll arr lo hi) k = aget arr k) ∧
    (∀ k, lo ≤ k → k ≤ hi → ∃ m, lo ≤ m ∧ m ≤ hi ∧
      aget (quickSortRoll arr lo hi) k = aget arr m) ∧
    (∀ k l, lo ≤ k → k ≤ l → l ≤ hi →
      strcmp (aget (quickSortRoll arr lo hi) k).roll
        (aget (quickSortRoll arr lo hi) l).roll ≠ .gt) := by
  rw [quickSortRoll_base arr lo hi h]
  refine ⟨List.Perm.refl arr, fun k _ => rfl, fun k hk1 hk2 => ⟨k, hk1, hk2, rfl⟩, ?_⟩
  intro k l hk hkl hl
  have hkeq : k = l := by omega
  subst hkeq
  rw [strcmp_self]
  simp

theorem quickSortRoll_spec_fuel : ∀ (n : Nat), ∀ (arr : List Student) (lo hi : Int),
    (hi - lo).toNat ≤ n → 0 ≤ lo → hi < (arr.length : Int) →
    (quickSortRoll arr lo hi).Perm arr ∧
    (∀ k, k < lo ∨ hi < k → aget (quickSortRoll arr lo hi) k = aget arr k) ∧
    (∀ k, lo ≤ k → k ≤ hi → ∃ m, lo ≤ m ∧ m ≤ hi ∧
      aget (quickSortRoll arr lo hi) k = aget arr m) ∧
    (∀ k l, lo ≤ k → k ≤ l → l ≤ hi →
      strcmp (aget (quickSortRoll arr lo hi) k).roll
        (aget (quickSortRoll arr lo hi) l).roll ≠ .gt) := by
  intro n
  induction n with
  | zero =>
    intro arr lo hi hfuel h0lo hhilen
    exact qsr_bundle_trivial arr lo hi (by omega)
  | succ n ihn =>
    intro arr lo hi hfuel h0lo hhilen
    by_cases hlh : lo ≥ hi
    · exact qsr_bundle_trivial arr lo hi hlh
    rcases hPL : partLoop (rollLtp (aget arr ((lo + hi) / 2)).roll)
        (rollGtp (aget arr ((lo + hi) / 2)).roll) arr lo hi lo hi with ⟨arr1, i, j⟩
    have hprog := partLoop_progress (rollLtp (aget arr ((lo + hi) / 2)).roll)
        (rollGtp (aget arr ((lo + hi) / 2)).roll) arr lo hi ((lo + hi) / 2)
        (by omega) (by omega) (by simp [rollLtp, strcmp_self]) (by simp [rollGtp, strcmp_self])
    have hmono := partLoop_mono (rollLtp (aget arr ((lo + hi) / 2)).roll)
        (rollGtp (aget arr ((lo + hi) / 2)).roll) arr lo hi lo hi
    have hplen := partLoop_length (rollLtp (aget arr ((lo + hi) / 2)).roll)
        (rollGtp (aget arr ((lo + hi) / 2)).roll) arr lo hi lo hi
    have hspec := partLoop_spec (rollLtp (aget arr ((lo + hi) / 2)).roll)
        (rollGtp (aget arr ((lo + hi) / 2)).roll)
        (rollLtp_gtp_excl _) (rollGtp_ltp_excl _)
        arr lo hi lo hi h0lo hhilen (le_refl lo) (le_refl hi)
        (fun k hk1 hk2 => absurd hk2 (not_lt.mpr hk1))
        (fun k hk1 hk2 => absurd hk1 (not_lt.mpr hk2))
    rw [hPL] at hprog hmono hplen hspec
    dsimp only at hprog hmono hplen hspec
    obtain ⟨len1, perm1, out1, seg1, pre1, suf1⟩ := hspec
    have hlen1c : (arr1.length : Int) = (arr.length : Int) := by
      rw [len1]
    rw [quickSortRoll_unfold arr lo hi hlh (arr1, i, j) hPL.symm]
    dsimp only
    set A2 := if lo < j then quickSortRoll arr1 lo j else arr1 with hA2
    set A3 := if i < hi then quickSortRoll A2 i hi else A2 with hA3
    have Hb : A2.Perm arr1 ∧
        (∀ k, k < lo ∨ j < k → aget A2 k = aget arr1 k) ∧
        (∀ k, lo ≤ k → k ≤ j → ∃ m, lo ≤ m ∧ m ≤ j ∧ aget A2 k = aget arr1 m) ∧
        (∀ k l, lo ≤ k → k ≤ l → l ≤ j →
          strcmp (aget A2 k).roll (aget A2 l).roll ≠ .gt) := by
      rw [hA2]
      by_cases hj : lo < j
      · rw [if_pos hj]
        exact ihn arr1 lo j (by omega) h0lo (by omega)
      · rw [if_neg hj]
        refine ⟨List.Perm.refl arr1, fun k _ => rfl, fun k hk1 hk2 => ⟨k, hk1, hk2, rfl⟩, ?_⟩
        intro k l hk hkl hl
        have hkeq : k = l := by omega
        subst hkeq
        rw [strcmp_self]
        simp
    obtain ⟨permB, outB, segB, sortB⟩ := Hb
    have hlen2c : (A2.length : Int) = (arr.length : Int) := by
      rw [hA2]
      by_cases hj : lo < j
      · rw [if_pos hj, quickSortRoll_length]
        exact hlen1c
      · rw [if_neg hj]
        exact hlen1c
    have Hc : A3.Perm A2 ∧
        (∀ k, k < i ∨ hi < k → aget A3 k = aget A2 k) ∧
        (∀ k, i ≤ k → k ≤ hi → ∃ m, i ≤ m ∧ m ≤ hi ∧ aget A3 k = aget A2 m) ∧
        (∀ k l, i ≤ k → k ≤ l → l ≤ hi →
          strcmp (aget A3 k).roll (aget A3 l).roll ≠ .gt) := by
      rw [hA3]
      by_cases hi2 : i < hi
      · rw [if_pos hi2]
        exact ihn A2 i hi (by omega) (by omega) (by omega)
      · rw [if_neg hi2]
        refine ⟨List.Perm.refl A2, fun k _ => rfl, fun k hk1 hk2 => ⟨k, hk1, hk2, rfl⟩, ?_⟩
        intro k l hk hkl hl
        have hkeq : k = l := by omega
        subst hkeq
        rw [strcmp_self]
        simp
    obtain ⟨permC, outC, segC, sortC⟩ := Hc
    have keyLow : ∀ k, lo ≤ k → k ≤ j →
        strcmp (aget A3 k).roll (aget arr ((lo + hi) / 2)).roll ≠ .gt := by
      intro k hk1 hk2
      have h3 : aget A3 k = aget A2 k := outC k (Or.inl (by omega))
      obtain ⟨m, hm1, hm2, hm3⟩ := segB k hk1 hk2
      rw [h3, hm3]
      exact (rollGtp_false_iff _ _).mp (pre1 m hm1 (by omega))
    have keyMid : ∀ k, lo ≤ k → k ≤ hi → j < k → k < i →
        (aget A3 k).roll = (aget arr ((lo + hi) / 2)).roll := by
      intro k hk1 hk2 hk3 hk4
      have h3 : aget A3 k = aget A2 k := outC k (Or.inl hk4)
      have h2 : aget A2 k = aget arr1 k := outB k (Or.inr hk3)
      rw [h3, h2]
      exact strcmp_eq_of_not_lt_not_gt
        ((rollLtp_false_iff _ _).mp (suf1 k hk3 hk2))
        ((rollGtp_false_iff _ _).mp (pre1 k hk1 hk4))
    have keyHigh : ∀ k, i ≤ k → k ≤ hi →
        strcmp (aget arr ((lo + hi) / 2)).roll (aget A3 k).roll ≠ .gt := by
      intro k hk1 hk2
      obtain ⟨m, hm1, hm2, hm3⟩ := segC k hk1 hk2
      have h2 : aget A2 m = aget arr1 m := outB m (Or.inr (by omega))
      rw [hm3, h2]
      exact strcmp_le_of_not_lt ((rollLtp_false_iff _ _).mp (suf1 m (by omega) hm2))
    refine ⟨permC.trans (permB.trans perm1), ?_, ?_, ?_⟩
    · intro k hk
      have h3 : aget A3 k = aget A2 k :=
        outC k (hk.elim (fun h => Or.inl (by omega)) Or.inr)
      have h2 : aget A2 k = aget arr1 k :=
        outB k (hk.elim Or.inl (fun h => Or.inr (by omega)))
      rw [h3, h2]
      exact out1 k hk
    · intro k hk1 hk2
      by_cases hki : i ≤ k
      · obtain ⟨m, hm1, hm2, hm3⟩ := segC k hki hk2
        have h2 : aget A2 m = aget arr1 m := outB m (Or.inr (by omega))
        obtain ⟨m', hm'1, hm'2, hm'3⟩ := seg1 m (by omega) hm2
        exact ⟨m', hm'1, hm'2, by rw [hm3, h2, hm'3]⟩
      · have h3 : aget A3 k = aget A2 k := outC k (Or.inl (by omega))
        by_cases hkj : k ≤ j
        · obtain ⟨m, hm1, hm2, hm3⟩ := segB k hk1 hkj
          obtain ⟨m', hm'1, hm'2, hm'3⟩ := seg1 m hm1 (by omega)
          exact ⟨m', hm'1, hm'2, by rw [h3, hm3, hm'3]⟩
        · have h2 : aget A2 k = aget arr1 k := outB k (Or.inr (by omega))
          obtain ⟨m', hm'1, hm'2, hm'3⟩ := seg1 k hk1 hk2
          exact ⟨m', hm'1, hm'2, by rw [h3, h2, hm'3]⟩
    · intro k l hk hkl hl
      by_cases hkj : k ≤ j
      · by_cases hlj : l ≤ j
        · have h3k : aget A3 k = aget A2 k := outC k (Or.inl (by omega))
          have h3l : aget A3 l = aget A2 l := outC l (Or.inl (by omega))
          rw [h3k, h3l]
          exact sortB k l hk hkl hlj
        · by_cases hli : l < i
          · rw [keyMid l (by omega) hl (by omega) hli]
            exact keyLow k hk hkj
          · exact strcmp_le_trans (keyLow k hk hkj) (keyHigh l (by omega) hl)
      · by_cases hki : k < i
        · rw [keyMid k hk (by omega) (by omega) hki]
          by_cases hli : l < i
          · rw [keyMid l (by omega) hl (by omega) hli]
            rw [strcmp_self]
            simp
          · exact keyHigh l (by omega) hl
        · exact sortC k l (by omega) hkl hl

theorem aget_eq_getElem (arr : List Student) (k : Nat) (h : k < arr.length) :
    aget arr (k : Int) = arr[k] := by
  unfold aget
  rw [if_pos (by omega : (0:Int) ≤ (k:Int))]
  simp [List.getD_eq_getElem?_getD, List.getElem?_eq_getElem, h]

theorem quickSortRoll_perm (arr : List Student) :
    (quickSortRoll arr 0 ((arr.length : Int) - 1)).Perm arr :=
  (quickSortRoll_spec_fuel ((arr.length : Int) - 1 - 0).toNat arr 0 ((arr.length : Int) - 1)
    (le_refl _) (by omega) (by omega)).1

theorem quickSortRoll_sorted (arr : List Student) :
    List.Pairwise (fun a b => strcmp a.roll b.roll ≠ .gt)
      (quickSortRoll arr 0 ((arr.length : Int) - 1)) := by
  obtain ⟨_, _, _, hsort⟩ := quickSortRoll_spec_fuel ((arr.length : Int) - 1 - 0).toNat arr 0
    ((arr.length : Int) - 1) (le_refl _) (by omega) (by omega)
  rw [List.pairwise_iff_getElem]
  intro a b ha hb hab
  have hlen := quickSortRoll_length arr 0 ((arr.length : Int) - 1)
  have h1 := hsort (a : Int) (b : Int) (by omega) (by omega) (by omega)
  rw [aget_eq_getElem _ a ha, aget_eq_getElem _ b hb] at h1
  exact h1

theorem scanI_eq (arr : List Student) (ltp : Student → Bool) (hi i m : Int)
    (him : i ≤ m) (hmhi : m ≤ hi)
    (hall : ∀ k, i ≤ k → k < m → ltp (aget arr k) = true)
    (hm : ltp (aget arr m) = false) : scanI arr ltp hi i = m := by
  have h1 := scanI_min arr ltp hi i m him hm
  have h2 := scanI_ge arr ltp hi i
  by_contra hne
  have hstop := scanI_stop arr ltp hi i (by omega)
  rw [hall _ (by omega) (by omega)] at hstop
  cases hstop

theorem scanJ_eq (arr : List Student) (gtp : Student → Bool) (lo j m : Int)
    (hmj : m ≤ j) (hlom : lo ≤ m)
    (hall : ∀ k, m < k → k ≤ j → gtp (aget arr k) = true)
    (hm : gtp (aget arr m) = false) : scanJ arr gtp lo j = m := by
  have h1 := scanJ_max arr gtp lo j m hmj hm
  have h2 := scanJ_le arr gtp lo j
  by_contra hne
  have hstop := scanJ_stop arr gtp lo j (by omega)
  rw [hall _ (by omega) (by omega)] at hstop
  cases hstop

theorem set_getD_self {α : Type} : ∀ (l : List α) (k : Nat) (d : α),
    l.set k (l.getD k d) = l
  | [], _, _ => by simp
  | _ :: _, 0, _ => by simp
  | b :: t, k + 1, d => by
    simp only [List.getD_cons_succ, List.set_cons_succ]
    rw [set_getD_self t k d]

theorem quickSwap_self (arr : List Student) (k : Int) : quickSwap arr k k = arr := by
  unfold quickSwap aset aget
  by_cases h : (0:Int) ≤ k
  · simp only [if_pos h]
    rw [set_getD_self, set_getD_self]
  · simp only [if_neg h]

theorem partLoop_strict (ltp gtp : Student → Bool) (arr : List Student) (lo hi m : Int)
    (hlom : lo ≤ m) (hmhi : m ≤ hi) (hlh : lo ≤ hi)
    (h1 : ∀ k, lo ≤ k → k < m → ltp (aget arr k) = true)
    (h2 : ltp (aget arr m) = false) (h3 : gtp (aget arr m) = false)
    (h4 : ∀ k, m < k → k ≤ hi → gtp (aget arr k) = true) :
    partLoop ltp gtp arr lo hi lo hi = (arr, m + 1, m - 1) := by
  have eI : scanI arr ltp hi lo = m := scanI_eq arr ltp hi lo m hlom hmhi h1 h2
  have eJ : scanJ arr gtp lo hi = m := scanJ_eq arr gtp lo hi m hmhi hlom h4 h3
  rw [partLoop.eq_def, if_pos hlh, eI, eJ, if_pos (le_refl m), quickSwap_self]
  rw [partLoop.eq_def, if_neg (by omega)]

theorem quickSortRoll_sorted_id_fuel : ∀ (n : Nat), ∀ (arr : List Student) (lo hi : Int),
    (hi - lo).toNat ≤ n →
    (∀ k l, lo ≤ k → k < l → l ≤ hi →
      strcmp (aget arr k).roll (aget arr l).roll = .lt) →
    quickSortRoll arr lo hi = arr := by
  intro n
  induction n with
  | zero =>
    intro arr lo hi hfuel _
    exact quickSortRoll_base arr lo hi (by omega)
  | succ n ihn =>
    intro arr lo hi hfuel hstrict
    by_cases hlh : lo ≥ hi
    · exact quickSortRoll_base arr lo hi hlh
    have hm1 : lo ≤ (lo + hi) / 2 := by omega
    have hm2 : (lo + hi) / 2 ≤ hi := by omega
    have hPL : partLoop (rollLtp (aget arr ((lo + hi) / 2)).roll)
        (rollGtp (aget arr ((lo + hi) / 2)).roll) arr lo hi lo hi
        = (arr, (lo + hi) / 2 + 1, (lo + hi) / 2 - 1) := by
      refine partLoop_strict _ _ arr lo hi ((lo + hi) / 2) hm1 hm2 (by omega) ?_
        (by simp [rollLtp, strcmp_self]) (by simp [rollGtp, strcmp_self]) ?_
      · intro k hk1 hk2
        simp only [rollLtp, decide_eq_true_eq]
        exact hstrict k ((lo + hi) / 2) hk1 hk2 hm2
      · intro k hk1 hk2
        simp only [rollGtp, decide_eq_true_eq]
        exact (strcmp_lt_gt _ _).mp (hstrict ((lo + hi) / 2) k hm1 hk1 hk2)
    rw [quickSortRoll_unfold arr lo hi hlh _ hPL.symm]
    dsimp only
    have hsub1 : quickSortRoll arr lo ((lo + hi) / 2 - 1) = arr := by
      refine ihn arr lo ((lo + hi) / 2 - 1) (by omega) ?_
      intro k l hk hkl hl
      exact hstrict k l hk hkl (by omega)
    have hsub2 : quickSortRoll arr ((lo + hi) / 2 + 1) hi = arr := by
      refine ihn arr ((lo + hi) / 2 + 1) hi (by omega) ?_
      intro k l hk hkl hl
      exact hstrict k l (by omega) hkl hl
    by_cases hj : lo < (lo + hi) / 2 - 1
    · rw [if_pos hj, hsub1]
      by_cases hi2 : (lo + hi) / 2 + 1 < hi
      · rw [if_pos hi2, hsub2]
      · rw [if_neg hi2]
    · rw [if_neg hj]
      by_cases hi2 : (lo + hi) / 2 + 1 < hi
      · rw [if_pos hi2, hsub2]
      · rw [if_neg hi2]

theorem quickSortRoll_idem (arr : List Student)
    (hdist : List.Pairwise (fun a b => a.roll ≠ b.roll) arr) :
    quickSortRoll (quickSortRoll arr 0 ((arr.length : Int) - 1)) 0 ((arr.length : Int) - 1)
      = quickSortRoll arr 0 ((arr.length : Int) - 1) := by
  have hperm := quickSortRoll_perm arr
  have hsorted := quickSortRoll_sorted arr
  have hlen := quickSortRoll_length arr 0 ((arr.length : Int) - 1)
  have hdist' : List.Pairwise (fun a b : Student => a.roll ≠ b.roll)
      (quickSortRoll arr 0 ((arr.length : Int) - 1)) :=
    (List.Perm.pairwise_iff (fun h heq => h heq.symm) hperm).mpr hdist
  rw [List.pairwise_iff_getElem] at hsorted hdist'
  refine quickSortRoll_sorted_id_fuel _ _ 0 ((arr.length : Int) - 1) (le_refl _) ?_
  intro k l hk hkl hl
  have hkN : k.toNat < (quickSortRoll arr 0 ((arr.length : Int) - 1)).length := by omega
  have hlN : l.toNat < (quickSortRoll arr 0 ((arr.length : Int) - 1)).length := by omega
  have hk' : k = ((k.toNat : Nat) : Int) := by omega
  have hl' : l = ((l.toNat : Nat) : Int) := by omega
  rw [hk', hl', aget_eq_getElem _ _ hkN, aget_eq_getElem _ _ hlN]
  have hle := hsorted k.toNat l.toNat hkN hlN (by omega)
  have hne := hdist' k.toNat l.toNat hkN hlN (by omega)
  cases hc : strcmp (quickSortRoll arr 0 ((arr.length : Int) - 1))[k.toNat].roll
      (quickSortRoll arr 0 ((arr.length : Int) - 1))[l.toNat].roll with
  | lt => rfl
  | eq => exact absurd ((strcmp_eq_iff _ _).mp hc) hne
  | gt => exact absurd hc hle

def TRIE_ALPHABET : Nat := 27

/-- `chIndex`: map a character to its trie slot; space and anything
outside the (lowercased) letters goes to slot 26. -/
def chIndex (c : Char) : Nat :=
  if c = ' ' then 26
  else
    let c' := c.toLower
    if 'a' ≤ c' ∧ c' ≤ 'z' then c'.toNat - 'a'.toNat else 26

/-- A `TrieNode`: the records whose normalized name terminates here, and
the 27 child slots. -/
inductive TrieNode where
  | node (students : List Student) (children : List (Option TrieNode))

/-- The `TrieNode` constructor: no students, 27 empty slots. -/
def newTrieNode : TrieNode := .node [] (List.replicate 27 none)

/-- The walk of `NameTrie::insert` along an index path: create missing
children, append the record at the terminal node (`addStudent`). -/
def insertPath : TrieNode → List Nat → Student → TrieNode
  | .node studs children, [], s => .node (studs ++ [s]) children
  | .node studs children, idx :: rest, s =>
    let child := match children.getD idx none with
      | some c => c
      | none => newTrieNode
    .node studs (children.set idx (some (insertPath child rest s)))

/-- The normalized key of a record: its name mapped through `chIndex`. -/
def normName (s : Student) : List Nat := s.name.map chIndex

/-- `NameTrie::insert`: walk by the `chIndex` of each name character. -/
def trieInsert (t : TrieNode) (s : Student) : TrieNode :=
  insertPath t (normName s) s

mutual

/-- `NameTrie::traverseCollect`: first this node's students in insertion
order, then the children in increasing slot order. -/
def traverseCollect : TrieNode → List Student
  | .node studs children => studs ++ collectChildren children

/-- The `for (i = 0; i < TRIE_ALPHABET; i++)` loop of `traverseCollect`. -/
def collectChildren : List (Option TrieNode) → List Student
  | [] => []
  | none :: rest => collectChildren rest
  | some t :: rest => traverseCollect t ++ collectChildren rest

end

/-- `sortByNameUsingTrie`: export the course, insert every record into a
fresh trie, and collect in traversal order. -/
def sortByNameUsingTrie (c : Course) : List Student :=
  traverseCollect (c.exportArray.foldl trieInsert newTrieNode)

/-- Case-insensitive name order induced by the trie alphabet (`a < b <
... < z <` separator), as lexicographic order on `chIndex` keys. -/
def keyLe : List Nat → List Nat → Bool
  | [], _ => true
  | _ :: _, [] => false
  | a :: as, b :: bs => if a < b then true else if b < a then false else keyLe as bs

/-- Stable sorted insertion: place `s` after every record whose key is
less than or equal to its own.  `traverseCollect` after `trieInsert`
behaves exactly like this (proved below). -/
def insStable (s : Student) : List Student → List Student
  | [] => [s]
  | x :: xs =>
    if keyLe (normName x) (normName s) then x :: insStable s xs else s :: x :: xs

theorem keyLe_refl : ∀ a : List Nat, keyLe a a = true
  | [] => rfl
  | x :: xs => by
    rw [keyLe, if_neg (lt_irrefl x), if_neg (lt_irrefl x)]
    exact keyLe_refl xs

theorem keyLe_total : ∀ a b : List Nat, keyLe a b = false → keyLe b a = true
  | [], _, h => by simp [keyLe] at h
  | _ :: _, [], _ => rfl
  | a :: as, b :: bs, h => by
    rw [keyLe] at h ⊢
    rcases lt_trichotomy a b with hab | hab | hab
    · rw [if_pos hab] at h
      cases h
    · subst hab
      rw [if_neg (lt_irrefl a), if_neg (lt_irrefl a)] at h ⊢
      exact keyLe_total as bs h
    · rw [if_pos hab]

theorem keyLe_trans : ∀ a b c : List Nat, keyLe a b = true → keyLe b c = true →
    keyLe a c = true
  | [], _, _, _, _ => rfl
  | _ :: _, [], _, h1, _ => by simp [keyLe] at h1
  | _ :: _, _ :: _, [], _, h2 => by simp [keyLe] at h2
  | a :: as, b :: bs, c :: cs, h1, h2 => by
    rw [keyLe] at h1 h2 ⊢
    rcases lt_trichotomy a b with hab | hab | hab
    · rcases lt_trichotomy b c with hbc | hbc | hbc
      · rw [if_pos (lt_trans hab hbc)]
      · subst hbc
        rw [if_pos hab]
      · rw [if_neg (lt_asymm hbc), if_pos hbc] at h2
        cases h2
    · subst hab
      rcases lt_trichotomy a c with hac | hac | hac
      · rw [if_pos hac]
      · subst hac
        rw [if_neg (lt_irrefl a), if_neg (lt_irrefl a)] at h1 h2 ⊢
        exact keyLe_trans as bs cs h1 h2
      · rw [if_neg (lt_asymm hac), if_pos hac] at h2
        cases h2
    · rw [if_neg (lt_asymm hab), if_pos hab] at h1
      cases h1

theorem keyLe_self_append : ∀ (p q : List Nat), keyLe p (p ++ q) = true
  | [], _ => rfl
  | x :: xs, q => by
    rw [List.cons_append, keyLe, if_neg (lt_irrefl x), if_neg (lt_irrefl x)]
    exact keyLe_self_append xs q

theorem keyLe_append_cons_false : ∀ (p : List Nat) (i : Nat) (r : List Nat),
    keyLe (p ++ i :: r) p = false
  | [], _, _ => rfl
  | x :: xs, i, r => by
    rw [List.cons_append, keyLe, if_neg (lt_irrefl x), if_neg (lt_irrefl x)]
    exact keyLe_append_cons_false xs i r

theorem keyLe_branch_true : ∀ (p : List Nat) (i i' : Nat) (r r' : List Nat), i < i' →
    keyLe (p ++ i :: r) (p ++ i' :: r') = true
  | [], i, i', r, r', h => by
    rw [List.nil_append, List.nil_append, keyLe, if_pos h]
  | x :: xs, i, i', r, r', h => by
    rw [List.cons_append, List.cons_append, keyLe, if_neg (lt_irrefl x),
      if_neg (lt_irrefl x)]
    exact keyLe_branch_true xs i i' r r' h

theorem keyLe_branch_false : ∀ (p : List Nat) (i i' : Nat) (r r' : List Nat), i < i' →
    keyLe (p ++ i' :: r') (p ++ i :: r) = false
  | [], i, i', r, r', h => by
    rw [List.nil_append, List.nil_append, keyLe, if_neg (lt_asymm h), if_pos h]
  | x :: xs, i, i', r, r', h => by
    rw [List.cons_append, List.cons_append, keyLe, if_neg (lt_irrefl x),
      if_neg (lt_irrefl x)]
    exact keyLe_branch_false xs i i' r r' h

theorem insStable_append_left (s : Student) :
    ∀ (l1 l2 : List Student), (∀ x ∈ l1, keyLe (normName x) (normName s) = true) →
    insStable s (l1 ++ l2) = l1 ++ insStable s l2 := by
  intro l1
  induction l1 with
  | nil => intro l2 _; simp
  | cons x xs ih =>
    intro l2 h
    rw [List.cons_append, insStable, if_pos (h x (List.mem_cons_self x xs))]
    rw [ih l2 (fun y hy => h y (List.mem_cons_of_mem x hy))]
    rw [List.cons_append]

theorem insStable_append_right (s : Student) :
    ∀ (l1 l2 : List Student), (∀ x ∈ l2, keyLe (normName x) (normName s) = false) →
    insStable s (l1 ++ l2) = insStable s l1 ++ l2 := by
  intro l1
  induction l1 with
  | nil =>
    intro l2 h
    cases l2 with
    | nil => simp [insStable]
    | cons y ys =>
      have hy := h y (List.mem_cons_self y ys)
      rw [List.nil_append]
      simp only [insStable]
      rw [if_neg (by rw [hy]; simp)]
      rfl
  | cons x xs ih =>
    intro l2 h
    by_cases hx : keyLe (normName x) (normName s) = true
    · rw [List.cons_append, insStable, if_pos hx, ih l2 h, insStable, if_pos hx,
        List.cons_append]
    · rw [List.cons_append, insStable, if_neg hx, insStable, if_neg hx]
      rfl

theorem insStable_mem (s : Student) :
    ∀ (l : List Student) (y : Student), y ∈ insStable s l → y = s ∨ y ∈ l := by
  intro l
  induction l with
  | nil => intro y hy; simp [insStable] at hy; exact Or.inl hy
  | cons x xs ih =>
    intro y hy
    rw [insStable] at hy
    by_cases hx : keyLe (normName x) (normName s) = true
    · rw [if_pos hx] at hy
      rcases List.mem_cons.mp hy with h1 | h2
      · exact Or.inr (by rw [h1]; exact List.mem_cons_self x xs)
      · rcases ih y h2 with h3 | h4
        · exact Or.inl h3
        · exact Or.inr (List.mem_cons_of_mem x h4)
    · rw [if_neg hx] at hy
      rcases List.mem_cons.mp hy with h1 | h2
      · exact Or.inl h1
      · exact Or.inr h2

theorem insStable_sorted (s : Student) :
    ∀ l, List.Pairwise (fun a b => keyLe (normName a) (normName b) = true) l →
    List.Pairwise (fun a b => keyLe (normName a) (normName b) = true) (insStable s l) := by
  intro l
  induction l with
  | nil => intro _; simp [insStable]
  | cons x xs ih =>
    intro h
    rw [insStable]
    by_cases hx : keyLe (normName x) (normName s) = true
    · rw [if_pos hx]
      rw [List.pairwise_cons] at h ⊢
      refine ⟨?_, ih h.2⟩
      intro y hy
      rcases insStable_mem s xs y hy with h1 | h2
      · rw [h1]; exact hx
      · exact h.1 y h2
    · rw [if_neg hx]
      rw [List.pairwise_cons]
      refine ⟨?_, h⟩
      intro y hy
      rcases List.mem_cons.mp hy with h1 | h2
      · rw [h1]
        exact keyLe_total _ _ (by revert hx; cases keyLe (normName x) (normName s) <;> simp)
      · rw [List.pairwise_cons] at h
        exact keyLe_trans _ _ _
          (keyLe_total _ _ (by revert hx; cases keyLe (normName x) (normName s) <;> simp))
          (h.1 y h2)

theorem insStable_filter_eq (s : Student) (k : List Nat) (hs : normName s = k) :
    ∀ l, List.Pairwise (fun a b => keyLe (normName a) (normName b) = true) l →
    (insStable s l).filter (fun x => decide (normName x = k))
      = l.filter (fun x => decide (normName x = k)) ++ [s] := by
  intro l
  induction l with
  | nil => intro _; simp [insStable, List.filter, hs]
  | cons x xs ih =>
    intro h
    rw [List.pairwise_cons] at h
    rw [insStable]
    by_cases hx : keyLe (normName x) (normName s) = true
    · rw [if_pos hx]
      simp only [List.filter_cons]
      rw [ih h.2]
      cases hdx : decide (normName x = k) <;> simp
    · rw [if_neg hx]
      have hnone : ∀ y ∈ x :: xs, ¬ (normName y = k) := by
        intro y hy hyk
        rcases List.mem_cons.mp hy with h1 | h2
        · apply hx
          rw [h1] at hyk
          rw [hyk, ← hs] at *
          exact keyLe_refl _
        · apply hx
          have hxy := h.1 y h2
          have : keyLe (normName x) (normName s) = keyLe (normName x) (normName y) := by
            rw [hyk, hs]
          rw [this]
          exact hxy
      have hfil : (x :: xs).filter (fun x => decide (normName x = k)) = [] := by
        rw [List.filter_eq_nil_iff]
        intro a ha
        simp only [decide_eq_true_eq]
        exact hnone a ha
      simp [List.filter_cons, hs, hfil]

theorem insStable_filter_ne (s : Student) (k : List Nat) (hs : ¬ normName s = k) :
    ∀ l, (insStable s l).filter (fun x => decide (normName x = k))
      = l.filter (fun x => decide (normName x = k)) := by
  intro l
  induction l with
  | nil => simp [insStable, List.filter, hs]
  | cons x xs ih =>
    rw [insStable]
    by_cases hx : keyLe (normName x) (normName s) = true
    · rw [if_pos hx]
      simp only [List.filter_cons]
      rw [ih]
    · rw [if_neg hx, List.filter_cons, decide_eq_false hs]
      simp

theorem getD_set_self {α : Type} (l : List α) (i : Nat) (v d : α) (h : i < l.length) :
    (l.set i v).getD i d = v := by
  simp [List.getD_eq_getElem?_getD, List.getElem?_set, h]

theorem getD_set_ne {α : Type} (l : List α) (i k : Nat) (v d : α) (h : i ≠ k) :
    (l.set i v).getD k d = l.getD k d := by
  simp [List.getD_eq_getElem?_getD, List.getElem?_set, h]

theorem getD_some_lt {α : Type} (l : List (Option α)) (i : Nat) (t : α)
    (h : l.getD i none = some t) : i < l.length := by
  by_contra hc
  rw [List.getD_eq_default _ _ (by omega)] at h
  cases h

theorem getD_take {α : Type} : ∀ (l : List α) (n k : Nat) (d : α), k < n →
    (l.take n).getD k d = l.getD k d
  | [], _, _, _, _ => by simp
  | _ :: _, 0, k, _, h => by omega
  | x :: xs, n + 1, 0, d, _ => by simp
  | x :: xs, n + 1, k + 1, d, h => by
    rw [List.take_succ_cons, List.getD_cons_succ, List.getD_cons_succ]
    exact getD_take xs n k d (by omega)

theorem getD_drop {α : Type} : ∀ (l : List α) (n k : Nat) (d : α),
    (l.drop n).getD k d = l.getD (n + k) d
  | l, 0, k, d => by simp
  | [], n + 1, k, d => by simp
  | x :: xs, n + 1, k, d => by
    rw [List.drop_succ_cons]
    rw [getD_drop xs n k d]
    have : n + 1 + k = (n + k) + 1 := by omega
    rw [this, List.getD_cons_succ]

theorem getD_replicate_none {α : Type} : ∀ (n k : Nat),
    (List.replicate n (none : Option α)).getD k none = none
  | 0, _ => rfl
  | _ + 1, 0 => rfl
  | n + 1, k + 1 => by
    rw [List.replicate_succ, List.getD_cons_succ]
    exact getD_replicate_none n k

/-- The students collected from an optional child slot. -/
def collectOpt : Option TrieNode → List Student
  | none => []
  | some t => traverseCollect t

theorem collectChildren_cons (o : Option TrieNode) (rest : List (Option TrieNode)) :
    collectChildren (o :: rest) = collectOpt o ++ collectChildren rest := by
  cases o with
  | none => rw [collectChildren, collectOpt, List.nil_append]
  | some t => rw [collectChildren, collectOpt]

theorem collectChildren_decomp : ∀ (cs : List (Option TrieNode)) (idx : Nat),
    idx < cs.length →
    collectChildren cs = collectChildren (cs.take idx) ++ collectOpt (cs.getD idx none)
      ++ collectChildren (cs.drop (idx + 1))
  | c :: rest, 0, _ => by
    rw [List.take_zero, List.getD_cons_zero, collectChildren_cons]
    rw [collectChildren]
    simp
  | c :: rest, idx + 1, h => by
    rw [collectChildren_cons, collectChildren_decomp rest idx (by simpa using h)]
    rw [List.take_succ_cons, List.getD_cons_succ, List.drop_succ_cons, collectChildren_cons]
    simp [List.append_assoc]

theorem collectChildren_set : ∀ (cs : List (Option TrieNode)) (idx : Nat)
    (v : Option TrieNode), idx < cs.length →
    collectChildren (cs.set idx v) = collectChildren (cs.take idx) ++ collectOpt v
      ++ collectChildren (cs.drop (idx + 1))
  | c :: rest, 0, v, _ => by
    rw [List.set_cons_zero, List.take_zero, collectChildren_cons]
    rw [collectChildren]
    simp
  | c :: rest, idx + 1, v, h => by
    rw [List.set_cons_succ, collectChildren_cons,
      collectChildren_set rest idx v (by simpa using h)]
    rw [List.take_succ_cons, List.drop_succ_cons, collectChildren_cons]
    simp [List.append_assoc]

theorem collectChildren_mem (P : Student → Prop) :
    ∀ (cs : List (Option TrieNode)),
    (∀ k t, cs.getD k none = some t → ∀ s ∈ traverseCollect t, P s) →
    ∀ s ∈ collectChildren cs, P s
  | [] => by
    intro _ s hs
    rw [collectChildren] at hs
    simp at hs
  | none :: rest => by
    intro h s hs
    rw [collectChildren] at hs
    refine collectChildren_mem P rest ?_ s hs
    intro k t hk
    exact h (k + 1) t (by rw [List.getD_cons_succ]; exact hk)
  | some t0 :: rest => by
    intro h s hs
    rw [collectChildren] at hs
    rcases List.mem_append.mp hs with h1 | h2
    · exact h 0 t0 rfl s h1
    · refine collectChildren_mem P rest ?_ s h2
      intro k t hk
      exact h (k + 1) t (by rw [List.getD_cons_succ]; exact hk)

/-- Well-formedness of a trie whose root is reached by the key path `p`:
students stored here have exactly key `p`, there are 27 child slots, and
the child in slot `i` is well-formed for path `p ++ [i]`. -/
inductive TrieWF : List Nat → TrieNode → Prop
  | mk (p : List Nat) (studs : List Student) (children : List (Option TrieNode))
      (hstuds : ∀ s ∈ studs, normName s = p)
      (hlen : children.length = 27)
      (hch : ∀ idx t, children.getD idx none = some t → TrieWF (p ++ [idx]) t) :
      TrieWF p (.node studs children)

theorem trieWF_new (p : List Nat) : TrieWF p newTrieNode := by
  refine TrieWF.mk p [] (List.replicate 27 none) (by simp) (by simp) ?_
  intro idx t h
  rw [getD_replicate_none] at h
  cases h

theorem collect_new : traverseCollect newTrieNode = [] := by
  rw [newTrieNode, traverseCollect, List.nil_append]
  have h : ∀ n, collectChildren (List.replicate n (none : Option TrieNode)) = [] := by
    intro n
    induction n with
    | zero => rw [List.replicate_zero, collectChildren]
    | succ n ih => rw [List.replicate_succ, collectChildren, ih]
  exact h 27

theorem collect_prefix : ∀ (p : List Nat) (t : TrieNode), TrieWF p t →
    ∀ s ∈ traverseCollect t, ∃ r, normName s = p ++ r := by
  intro p t h
  induction h with
  | mk p studs children hstuds hlen hch ih =>
    intro s hs
    rw [traverseCollect] at hs
    rcases List.mem_append.mp hs with h1 | h2
    · exact ⟨[], by rw [hstuds s h1, List.append_nil]⟩
    · refine collectChildren_mem (fun s => ∃ r, normName s = p ++ r) children ?_ s h2
      intro k t' hk s' hs'
      obtain ⟨r, hr⟩ := ih k t' hk s' hs'
      refine ⟨k :: r, ?_⟩
      rw [hr, List.append_assoc]
      rfl

theorem trieWF_insertPath : ∀ (q p : List Nat) (t : TrieNode) (s : Student),
    TrieWF p t → normName s = p ++ q → (∀ i ∈ q, i < 27) →
    TrieWF p (insertPath t q s)
  | [], p, .node studs children, s, h, hs, _ => by
    cases h with
    | mk _ _ _ hstuds hlen hch =>
      rw [insertPath]
      refine TrieWF.mk p (studs ++ [s]) children ?_ hlen hch
      intro x hx
      rcases List.mem_append.mp hx with h1 | h2
      · exact hstuds x h1
      · rw [List.mem_singleton.mp h2, hs, List.append_nil]
  | idx :: rest, p, .node studs children, s, h, hs, hq => by
    cases h with
    | mk _ _ _ hstuds hlen hch =>
      have hidxlt : idx < children.length := by
        rw [hlen]
        exact hq idx (List.mem_cons_self _ _)
      rw [insertPath]
      refine TrieWF.mk p studs _ hstuds (by rw [List.length_set]; exact hlen) ?_
      intro i t' ht'
      by_cases hidx : idx = i
      · subst hidx
        rw [getD_set_self _ _ _ _ hidxlt] at ht'
        have ht'' : t' = insertPath
            (match children.getD idx none with
              | some c => c
              | none => newTrieNode) rest s := by
          injection ht' with h'
          exact h'.symm
        subst ht''
        have hwfchild : TrieWF (p ++ [idx])
            (match children.getD idx none with
              | some c => c
              | none => newTrieNode) := by
          cases hc : children.getD idx none with
          | some c => exact hch idx c hc
          | none => exact trieWF_new (p ++ [idx])
        refine trieWF_insertPath rest (p ++ [idx]) _ s hwfchild ?_ ?_
        · rw [hs, List.append_assoc]
          rfl
        · intro i hi
          exact hq i (List.mem_cons_of_mem _ hi)
      · rw [getD_set_ne _ _ _ _ _ hidx] at ht'
        exact hch i t' ht'

theorem collect_insertPath : ∀ (q p : List Nat) (t : TrieNode) (s : Student),
    TrieWF p t → normName s = p ++ q → (∀ i ∈ q, i < 27) →
    traverseCollect (insertPath t q s) = insStable s (traverseCollect t)
  | [], p, .node studs children, s, h, hs, _ => by
    cases h with
    | mk _ _ _ hstuds hlen hch =>
      rw [insertPath, traverseCollect, traverseCollect]
      have h1 : ∀ x ∈ studs, keyLe (normName x) (normName s) = true := by
        intro x hx
        rw [hstuds x hx, hs, List.append_nil]
        exact keyLe_refl p
      have h2 : ∀ x ∈ collectChildren children, keyLe (normName x) (normName s) = false := by
        refine collectChildren_mem
          (fun x => keyLe (normName x) (normName s) = false) children ?_
        intro k t' hk x' hx'
        obtain ⟨r, hr⟩ := collect_prefix (p ++ [k]) t' (hch k t' hk) x' hx'
        rw [hr, hs, List.append_nil, List.append_assoc]
        exact keyLe_append_cons_false p k r
      rw [insStable_append_right s studs (collectChildren children) h2]
      have h3 : insStable s studs = studs ++ [s] := by
        have h4 := insStable_append_left s studs [] h1
        rw [List.append_nil] at h4
        rw [h4, insStable]
      rw [h3, List.append_assoc]
  | idx :: rest, p, .node studs children, s, h, hs, hq => by
    cases h with
    | mk _ _ _ hstuds hlen hch =>
      have hidxlt : idx < children.length := by
        rw [hlen]
        exact hq idx (List.mem_cons_self _ _)
      rw [insertPath, traverseCollect, traverseCollect]
      rw [collectChildren_set children idx _ hidxlt]
      rw [collectChildren_decomp children idx hidxlt]
      have hStuds : ∀ x ∈ studs, keyLe (normName x) (normName s) = true := by
        intro x hx
        rw [hstuds x hx, hs]
        exact keyLe_self_append p _
      have hTake : ∀ x ∈ collectChildren (children.take idx),
          keyLe (normName x) (normName s) = true := by
        refine collectChildren_mem
          (fun x => keyLe (normName x) (normName s) = true) _ ?_
        intro k t' hk x' hx'
        have hklen : k < (children.take idx).length := getD_some_lt _ k t' hk
        have hkidx : k < idx := by
          rw [List.length_take] at hklen
          omega
        have hk' : children.getD k none = some t' := by
          rw [← getD_take children idx k none hkidx]
          exact hk
        obtain ⟨r, hr⟩ := collect_prefix (p ++ [k]) t' (hch k t' hk') x' hx'
        rw [hr, hs, List.append_assoc]
        exact keyLe_branch_true p k idx r rest hkidx
      have hDrop : ∀ x ∈ collectChildren (children.drop (idx + 1)),
          keyLe (normName x) (normName s) = false := by
        refine collectChildren_mem
          (fun x => keyLe (normName x) (normName s) = false) _ ?_
        intro k t' hk x' hx'
        have hk' : children.getD (idx + 1 + k) none = some t' := by
          rw [← getD_drop children (idx + 1) k none]
          exact hk
        obtain ⟨r, hr⟩ := collect_prefix (p ++ [idx + 1 + k]) t' (hch _ t' hk') x' hx'
        rw [hr, hs, List.append_assoc]
        exact keyLe_branch_false p idx (idx + 1 + k) rest r (by omega)
      have hchild : traverseCollect (insertPath
          (match children.getD idx none with
            | some c => c
            | none => newTrieNode) rest s)
          = insStable s (collectOpt (children.getD idx none)) := by
        cases hc : children.getD idx none with
        | some c =>
          show traverseCollect (insertPath c rest s) = insStable s (traverseCollect c)
          exact collect_insertPath rest (p ++ [idx]) c s (hch idx c hc)
            (by rw [hs, List.append_assoc]; rfl)
            (fun i hi => hq i (List.mem_cons_of_mem _ hi))
        | none =>
          show traverseCollect (insertPath newTrieNode rest s) = insStable s []
          rw [collect_insertPath rest (p ++ [idx]) newTrieNode s (trieWF_new (p ++ [idx]))
            (by rw [hs, List.append_assoc]; rfl)
            (fun i hi => hq i (List.mem_cons_of_mem _ hi))]
          rw [collect_new]
      rw [collectOpt, hchild]
      have hsplit2 : insStable s (studs ++ (collectChildren (children.take idx) ++
          collectOpt (children.getD idx none) ++
          collectChildren (children.drop (idx + 1))))
          = (studs ++ collectChildren (children.take idx)) ++
            insStable s (collectOpt (children.getD idx none)) ++
            collectChildren (children.drop (idx + 1)) := by
        have e1 : studs ++ (collectChildren (children.take idx) ++
            collectOpt (children.getD idx none) ++
            collectChildren (children.drop (idx + 1)))
            = ((studs ++ collectChildren (children.take idx)) ++
              collectOpt (children.getD idx none)) ++
              collectChildren (children.drop (idx + 1)) := by
          simp [List.append_assoc]
        rw [e1]
        rw [insStable_append_right s _ _ hDrop]
        rw [insStable_append_left s (studs ++ collectChildren (children.take idx)) _
          (by
            intro x hx
            rcases List.mem_append.mp hx with h1 | h2
            · exact hStuds x h1
            · exact hTake x h2)]
      rw [hsplit2]
      simp [List.append_assoc]

theorem chIndex_lt (c : Char) : chIndex c < 27 := by
  unfold chIndex
  split
  · omega
  · show (if 'a' ≤ c.toLower ∧ c.toLower ≤ 'z' then c.toLower.toNat - 'a'.toNat else 26) < 27
    split
    · next h =>
      have h2 : c.toLower.toNat ≤ 122 := by
        have h3 := h.2
        rw [Char.le_def] at h3
        exact h3
      have h4 : ('a').toNat = 97 := rfl
      omega
    · omega

theorem normName_lt (s : Student) : ∀ i ∈ normName s, i < 27 := by
  intro i hi
  rw [normName] at hi
  obtain ⟨c, _, hc⟩ := List.mem_map.mp hi
  rw [← hc]
  exact chIndex_lt c

theorem trieWF_insert (t : TrieNode) (s : Student) (h : TrieWF [] t) :
    TrieWF [] (trieInsert t s) :=
  trieWF_insertPath (normName s) [] t s h (List.nil_append _).symm (normName_lt s)

theorem collect_insert (t : TrieNode) (s : Student) (h : TrieWF [] t) :
    traverseCollect (trieInsert t s) = insStable s (traverseCollect t) :=
  collect_insertPath (normName s) [] t s h (List.nil_append _).symm (normName_lt s)

theorem collect_fold : ∀ (L : List Student) (t : TrieNode), TrieWF [] t →
    traverseCollect (L.foldl trieInsert t)
      = L.foldl (fun acc s => insStable s acc) (traverseCollect t)
  | [], t, _ => by rw [List.foldl_nil, List.foldl_nil]
  | s :: L, t, h => by
    rw [List.foldl_cons, List.foldl_cons]
    rw [collect_fold L (trieInsert t s) (trieWF_insert t s h)]
    rw [collect_insert t s h]

/-- The trie sort computes exactly a stable sorted insertion of the
course list (head first) into an initially empty output. -/
theorem sortByName_eq_foldl (c : Course) :
    sortByNameUsingTrie c = c.foldl (fun acc s => insStable s acc) [] := by
  rw [sortByNameUsingTrie]
  rw [show Course.exportArray c = c from rfl]
  rw [collect_fold c newTrieNode (trieWF_new [])]
  rw [collect_new]

theorem foldl_insStable_sorted : ∀ (L acc : List Student),
    List.Pairwise (fun a b => keyLe (normName a) (normName b) = true) acc →
    List.Pairwise (fun a b => keyLe (normName a) (normName b) = true)
      (L.foldl (fun acc s => insStable s acc) acc)
  | [], acc, h => h
  | s :: L, acc, h => by
    rw [List.foldl_cons]
    exact foldl_insStable_sorted L (insStable s acc) (insStable_sorted s acc h)

/-- The trie sort yields names in non-decreasing normalized-key order. -/
theorem sortByName_sorted (c : Course) :
    List.Pairwise (fun a b => keyLe (normName a) (normName b) = true)
      (sortByNameUsingTrie c) := by
  rw [sortByName_eq_foldl]
  exact foldl_insStable_sorted c [] (by simp)

theorem foldl_insStable_filter (k : List Nat) : ∀ (L acc : List Student),
    List.Pairwise (fun a b => keyLe (normName a) (normName b) = true) acc →
    (L.foldl (fun acc s => insStable s acc) acc).filter (fun x => decide (normName x = k))
      = acc.filter (fun x => decide (normName x = k))
        ++ L.filter (fun x => decide (normName x = k))
  | [], acc, _ => by simp
  | s :: L, acc, h => by
    rw [List.foldl_cons]
    rw [foldl_insStable_filter k L (insStable s acc) (insStable_sorted s acc h)]
    rw [List.filter_cons]
    by_cases hsk : normName s = k
    · rw [insStable_filter_eq s k hsk acc h, decide_eq_true hsk]
      simp [List.append_assoc]
    · rw [insStable_filter_ne s k hsk acc, decide_eq_false hsk]
      simp

/-- Records with any fixed normalized key come out of the trie sort in
exactly the order they occur in the course list (head first). -/
theorem sortByName_filter (c : Course) (k : List Nat) :
    (sortByNameUsingTrie c).filter (fun x => decide (normName x = k))
      = c.filter (fun x => decide (normName x = k)) := by
  rw [sortByName_eq_foldl]
  rw [foldl_insStable_filter k c [] (by simp)]
  simp

theorem buildCourse_eq_reverse : ∀ (L : List Student) (acc : Course),
    L.foldl Course.addStudent acc = L.reverse ++ acc
  | [], acc => by simp
  | s :: L, acc => by
    rw [List.foldl_cons]
    rw [buildCourse_eq_reverse L (Course.addStudent acc s)]
    simp [Course.addStudent]

/-- Convert a string literal to the character-list representation. -/
def strL (s : String) : Str := s.toList

/-- Token counter with the same `inword` scan state as the source's
word-counting loop: the number of maximal non-whitespace runs. -/
def tokCount : Str → Bool → Nat
  | [], _ => 0
  | c :: rest, inword =>
    if isspaceC c then tokCount rest false
    else if inword then tokCount rest true
    else 1 + tokCount rest true

/-- The number of whitespace-separated tokens of a string. -/
def numTokens (s : Str) : Nat := tokCount s false


theorem nameScan_spec : ∀ (s : Str) (inword : Bool) (w : Nat),
    nameScan s inword w = if s.all isValidNameChar then .ok (w + tokCount s inword)
      else .error .InvalidSecondName
  | [], inword, w => by
    rw [nameScan, tokCount]
    simp
  | c :: rest, inword, w => by
    have hIH := nameScan_spec rest
    by_cases hv : isValidNameChar c = true
    · by_cases hall : rest.all isValidNameChar = true
      · by_cases hsp : isspaceC c = true
        · simp [nameScan, tokCount, List.all_cons, hv, hall, hsp, hIH]
        · have hspf : isspaceC c = false := by
            revert hsp
            cases isspaceC c <;> simp
          cases inword with
          | true => simp [nameScan, tokCount, List.all_cons, hv, hall, hspf, hIH]
          | false =>
            simp [nameScan, tokCount, List.all_cons, hv, hall, hspf, hIH]
            omega
      · have hallf : rest.all isValidNameChar = false := by
          revert hall
          cases rest.all isValidNameChar <;> simp
        by_cases hsp : isspaceC c = true
        · simp [nameScan, tokCount, List.all_cons, hv, hallf, hsp, hIH]
        · have hspf : isspaceC c = false := by
            revert hsp
            cases isspaceC c <;> simp
          cases inword with
          | true => simp [nameScan, tokCount, List.all_cons, hv, hallf, hspf, hIH]
          | false => simp [nameScan, tokCount, List.all_cons, hv, hallf, hspf, hIH]
    · have hcf : isValidNameChar c = false := by
        revert hv
        cases isValidNameChar c <;> simp
      simp [nameScan, List.all_cons, hcf]

theorem secondWordScan_ok : ∀ s : Str, s.all isValidNameChar = true →
    secondWordScan s = .ok ()
  | [], _ => rfl
  | c :: rest, h => by
    rw [List.all_cons, Bool.and_eq_true] at h
    rw [secondWordScan]
    by_cases hsp : isspaceC c = true
    · rw [if_pos hsp]
    · rw [if_neg hsp]
      have halpha : c.isAlpha = true ∨ c = '-' := by
        have hv := h.1
        simp only [isValidNameChar, Bool.or_eq_true, decide_eq_true_eq] at hv
        rcases hv with (h1 | h1) | h1
        · exact Or.inl h1
        · exfalso
          apply hsp
          rw [h1]
          rfl
        · exact Or.inr h1
      rw [if_neg (by rcases halpha with h1 | h1 <;> simp [h1])]
      exact secondWordScan_ok rest h.2

theorem findSecondWord_ok : ∀ (s : Str) (inword : Bool) (wc : Nat),
    s.all isValidNameChar = true → findSecondWord s inword wc = .ok ()
  | [], _, _, _ => rfl
  | c :: rest, inword, wc, h => by
    have hall := h
    rw [List.all_cons, Bool.and_eq_true] at h
    rw [findSecondWord]
    by_cases hsp : isspaceC c = true
    · rw [if_neg (by simp [hsp]), if_pos hsp]
      exact findSecondWord_ok rest false wc h.2
    · cases inword with
      | true =>
        rw [if_neg (by simp), if_neg hsp]
        exact findSecondWord_ok rest true wc h.2
      | false =>
        rw [if_pos (by exact ⟨hsp, by simp⟩)]
        by_cases hwc : wc + 1 = 2
        · rw [if_pos hwc]
          exact secondWordScan_ok (c :: rest) hall
        · rw [if_neg hwc]
          exact findSecondWord_ok rest true (wc + 1) h.2

/-- Full characterization of `validateName`: empty names and too few
tokens throw `NoSecondNameException`, any invalid character throws
`InvalidSecondNameException` (this check runs before the token count),
and everything else is accepted — the second-word check can never fire
once the global character check has passed. -/
theorem validateName_spec (s : Str) :
    validateName s = (if s = [] then Except.error StudentError.NoSecondName
      else if s.all isValidNameChar then
        (if numTokens s < 2 then Except.error StudentError.NoSecondName
         else Except.ok ())
      else Except.error StudentError.InvalidSecondName) := by
  rw [validateName]
  by_cases h0 : s.length = 0
  · have hnil : s = [] := List.length_eq_zero.mp h0
    rw [if_pos h0, if_pos hnil]
  · have hne : ¬ (s = []) := by
      intro hh
      subst hh
      simp at h0
    rw [if_neg h0, if_neg hne, nameScan_spec s false 0]
    by_cases hall : s.all isValidNameChar = true
    · rw [if_pos hall, if_pos hall]
      show (if 0 + tokCount s false < 2 then Except.error StudentError.NoSecondName
        else findSecondWord s false 0) = _
      rw [show (0 + tokCount s false) = numTokens s from by rw [numTokens]; omega]
      by_cases hw : numTokens s < 2
      · rw [if_pos hw, if_pos hw]
      · rw [if_neg hw, if_neg hw]
        exact findSecondWord_ok s false 0 hall
    · rw [if_neg hall, if_neg hall]

/-- Full characterization of `validateRoll`: the empty string and any
invalid character both throw the one kind `InvalidRollException`. -/
theorem validateRoll_spec (s : Str) :
    (validateRoll s = .error .InvalidRoll ↔ (s = [] ∨ ∃ c ∈ s, isValidRollChar c = false)) ∧
    (validateRoll s = .ok () ↔ (s ≠ [] ∧ ∀ c ∈ s, isValidRollChar c = true)) := by
  rw [validateRoll]
  by_cases h0 : s.length = 0
  · have hnil : s = [] := List.length_eq_zero.mp h0
    rw [if_pos h0]
    subst hnil
    simp
  · have hne : s ≠ [] := fun hh => by
      subst hh
      simp at h0
    rw [if_neg h0]
    by_cases hall : s.all isValidRollChar = true
    · rw [if_pos hall]
      have hall' : ∀ c ∈ s, isValidRollChar c = true := List.all_eq_true.mp hall
      constructor
      · constructor
        · intro hcontra
          cases hcontra
        · intro hcase
          exfalso
          rcases hcase with h | ⟨c, hc, hcf⟩
          · exact hne h
          · rw [hall' c hc] at hcf
            cases hcf
      · exact ⟨fun _ => ⟨hne, hall'⟩, fun _ => rfl⟩
    · rw [if_neg hall]
      have hex : ∃ c ∈ s, isValidRollChar c = false := by
        by_contra hcon
        push_neg at hcon
        apply hall
        rw [List.all_eq_true]
        intro c hc
        have hcc := hcon c hc
        revert hcc
        cases isValidRollChar c <;> simp
      constructor
      · exact ⟨fun _ => Or.inr hex, fun _ => rfl⟩
      · constructor
        · intro hcontra
          cases hcontra
        · intro hcase
          exfalso
          obtain ⟨c, hc, hcf⟩ := hex
          rw [hcase.2 c hc] at hcf
          cases hcf

/-- `setName`/`setRoll` are all-or-nothing: on success exactly the one
buffer changes, on any failure the record is returned untouched. -/
theorem setters_atomic (st : Student) (nm r : Str) :
    (Student.setName st nm).1
      = (if (Student.setName st nm).2 = none then { st with name := nm } else st) ∧
    (Student.setRoll st r).1
      = (if (Student.setRoll st r).2 = none then { st with roll := r } else st) := by
  constructor
  · rw [Student.setName]
    cases hv : validateName nm with
    | error e => simp
    | ok u =>
      rw [safeStrCpy]
      by_cases hlen : nm.length ≥ NAME_MAX
      · rw [if_pos hlen]
        simp
      · rw [if_neg hlen]
        simp
  · rw [Student.setRoll]
    cases hv : validateRoll r with
    | error e => simp
    | ok u =>
      rw [safeStrCpy]
      by_cases hlen : r.length ≥ ROLL_MAX
      · rw [if_pos hlen]
        simp
      · rw [if_neg hlen]
        simp

theorem findByRoll_skip : ∀ (M : List Student) (rest : Course) (r : Str),
    (∀ x ∈ M, x.roll ≠ r) →
    Course.findByRoll (M ++ rest) r = Course.findByRoll rest r
  | [], rest, r, _ => rfl
  | x :: M, rest, r, h => by
    rw [List.cons_append, Course.findByRoll]
    rw [if_neg (by
      intro hc
      exact h x (List.mem_cons_self x M) ((strcmp_eq_iff _ _).mp hc))]
    exact findByRoll_skip M rest r (fun y hy => h y (List.mem_cons_of_mem x hy))

/-- Looking up a roll finds the most recently added matching record:
`operator+=` prepends, the scan starts at the head. -/
theorem findByRoll_latest (L1 L2 : List Student) (a : Student) (r : Str)
    (ha : a.roll = r) (hL2 : ∀ x ∈ L2, x.roll ≠ r) :
    Course.findByRoll ((L1 ++ a :: L2).foldl Course.addStudent Course.empty) r = some a ∧
    Course.atRoll ((L1 ++ a :: L2).foldl Course.addStudent Course.empty) r = .ok a := by
  have hbuild : (L1 ++ a :: L2).foldl Course.addStudent Course.empty
      = L2.reverse ++ a :: L1.reverse := by
    rw [buildCourse_eq_reverse, List.reverse_append, List.reverse_cons]
    rw [Course.empty, List.append_nil, List.append_assoc]
    rfl
  have hfind : Course.findByRoll ((L1 ++ a :: L2).foldl Course.addStudent Course.empty) r
      = some a := by
    rw [hbuild]
    rw [findByRoll_skip L2.reverse _ r (fun x hx => hL2 x (List.mem_reverse.mp hx))]
    rw [Course.findByRoll, if_pos (by rw [ha]; exact strcmp_self r)]
  refine ⟨hfind, ?_⟩
  rw [Course.atRoll, hfind]

theorem quickSortRoll_pair_eqroll (x y : Student) (hxy : x.roll = y.roll) :
    quickSortRoll [x, y] 0 1 = [y, x] := by
  have h02 : ((0 + 1 : Int) / 2) = 0 := by decide
  have e1 : scanI [x, y] (rollLtp (aget [x, y] ((0 + 1) / 2)).roll) 1 0 = 0 := by
    refine scanI_eq _ _ 1 0 0 (le_refl 0) (by norm_num)
      (fun k h1 h2 => absurd h2 (by omega)) ?_
    rw [h02]
    simp [rollLtp, strcmp_self]
  have e2 : scanJ [x, y] (rollGtp (aget [x, y] ((0 + 1) / 2)).roll) 0 1 = 1 := by
    refine scanJ_eq _ _ 0 1 1 (le_refl 1) (by norm_num)
      (fun k h1 h2 => absurd h1 (by omega)) ?_
    rw [h02]
    have hag0 : aget [x, y] 0 = x := rfl
    have hag1 : aget [x, y] 1 = y := rfl
    rw [hag0, hag1]
    simp [rollGtp, hxy, strcmp_self]
  have hPL : partLoop (rollLtp (aget [x, y] ((0 + 1) / 2)).roll)
      (rollGtp (aget [x, y] ((0 + 1) / 2)).roll) [x, y] 0 1 0 1
      = ([y, x], 1, 0) := by
    rw [partLoop.eq_def, if_pos (by norm_num : (0 : Int) ≤ 1), e1, e2,
      if_pos (by norm_num : (0 : Int) ≤ 1)]
    rw [partLoop.eq_def, if_neg (by norm_num : ¬ ((0 + 1 : Int) ≤ 1 - 1))]
    rfl
  rw [quickSortRoll_unfold [x, y] 0 1 (by norm_num) ([y, x], 1, 0) hPL.symm]
  norm_num

theorem quickSortMarks_pair_eq (x y : Student) (mc : MarkComponent)
    (hxy : getComponent x mc = getComponent y mc) :
    quickSortMarks [x, y] 0 1 mc = [y, x] := by
  have h02 : ((0 + 1 : Int) / 2) = 0 := by decide
  have e1 : scanI [x, y] (marksLtp mc (getComponent (aget [x, y] ((0 + 1) / 2)) mc)) 1 0
      = 0 := by
    refine scanI_eq _ _ 1 0 0 (le_refl 0) (by norm_num)
      (fun k h1 h2 => absurd h2 (by omega)) ?_
    rw [h02]
    simp [marksLtp]
  have e2 : scanJ [x, y] (marksGtp mc (getComponent (aget [x, y] ((0 + 1) / 2)) mc)) 0 1
      = 1 := by
    refine scanJ_eq _ _ 0 1 1 (le_refl 1) (by norm_num)
      (fun k h1 h2 => absurd h1 (by omega)) ?_
    rw [h02]
    have hag0 : aget [x, y] 0 = x := rfl
    have hag1 : aget [x, y] 1 = y := rfl
    rw [hag0, hag1]
    simp [marksGtp, hxy]
  have hPL : partLoop (marksLtp mc (getComponent (aget [x, y] ((0 + 1) / 2)) mc))
      (marksGtp mc (getComponent (aget [x, y] ((0 + 1) / 2)) mc)) [x, y] 0 1 0 1
      = ([y, x], 1, 0) := by
    rw [partLoop.eq_def, if_pos (by norm_num : (0 : Int) ≤ 1), e1, e2,
      if_pos (by norm_num : (0 : Int) ≤ 1)]
    rw [partLoop.eq_def, if_neg (by norm_num : ¬ ((0 + 1 : Int) ≤ 1 - 1))]
    rfl
  rw [quickSortMarks_unfold [x, y] 0 1 mc (by norm_num) ([y, x], 1, 0) hPL.symm]
  norm_num

/-- The three records of the interactive demo. -/
def amit : Student :=
  { name := strL ("Amit Kumar"), roll := strL ("20CS1001"), branch := .BR_CSE,
    marks := ⟨15, 24, 10, 45⟩, level := 0 }

def sunita : Student :=
  { name := strL ("Sunita Sharma"), roll := strL ("21EC2001"), branch := .BR_ECE,
    marks := ⟨18, 28, 12, 40⟩, level := 1 }

def rahul : Student :=
  { name := strL ("Rahul Verma"), roll := strL ("19CS0999"), branch := .BR_CSE,
    marks := ⟨20, 30, 15, 50⟩, level := 2 }

/-- The demo course: the three records added in demo order. -/
def demoCourse : Course :=
  Course.addStudent (Course.addStudent (Course.addStudent Course.empty amit) sunita) rahul

/-- Two records with equal marks in every component and distinct rolls. -/
def tieA : Student :=
  { name := strL ("Ann Bee"), roll := strL ("A1"), branch := .BR_CSE,
    marks := ⟨5, 5, 5, 5⟩, level := 0 }

def tieB : Student :=
  { name := strL ("Cee Dee"), roll := strL ("B1"), branch := .BR_ECE,
    marks := ⟨5, 5, 5, 5⟩, level := 1 }

/-- Two distinct records sharing one roll string. -/
def dupRollA : Student :=
  { name := strL ("Ann Bee"), roll := strL ("R1"), branch := .BR_CSE,
    marks := ⟨1, 1, 1, 1⟩, level := 0 }

def dupRollB : Student :=
  { name := strL ("Cee Dee"), roll := strL ("R1"), branch := .BR_ECE,
    marks := ⟨2, 2, 2, 2⟩, level := 1 }

/-- Two distinct records sharing the name "Amit Kumar". -/
def dupNameA : Student :=
  { name := strL ("Amit Kumar"), roll := strL ("X1"), branch := .BR_CSE,
    marks := ⟨1, 1, 1, 1⟩, level := 0 }

def dupNameB : Student :=
  { name := strL ("Amit Kumar"), roll := strL ("X2"), branch := .BR_ECE,
    marks := ⟨2, 2, 2, 2⟩, level := 1 }

/-- C1 (code bug): `quickSortMarks` never applies the identity tie-break
that `cmpByMarksPtrFactory` (marked "tie-breaker" in the source) was
written for.  On the snapshot `[tieA, tieB]` — equal in every mark
component, rolls "A1" < "B1" — sorting by midterm returns
`[tieB, tieA]`: among equal mark values the identities come out in
strictly decreasing order, although the unused comparator orders the
pair ascending, as the claim demands. -/
theorem claimC1_marks_sort_misses_tiebreak :
    quickSortMarks [tieA, tieB] 0 (([tieA, tieB].length : Int) - 1) .MC_MID
      = [tieB, tieA] ∧
    getComponent tieA .MC_MID = getComponent tieB .MC_MID ∧
    strcmp tieA.roll tieB.roll = .lt ∧
    cmpByMarksPtrFactory tieA tieB .MC_MID = .lt := by
  refine ⟨?_, by decide, by decide, by decide⟩
  have hl : (([tieA, tieB].length : Int) - 1) = 1 := by norm_num
  rw [hl]
  exact quickSortMarks_pair_eq tieA tieB .MC_MID (by decide)

/-- C2 (counterexample): two distinct records with the identical name
"Amit Kumar", inserted `dupNameA` first and `dupNameB` second, come out
of `sortByNameUsingTrie` as `[dupNameB, dupNameA]` — the reverse of
their insertion order into the course — because `operator+=` prepends
and the trie is filled from the head of the list. -/
theorem claimC2_counterexample :
    normName dupNameA = normName dupNameB ∧
    dupNameA ≠ dupNameB ∧
    sortByNameUsingTrie
        (Course.addStudent (Course.addStudent Course.empty dupNameA) dupNameB)
      = [dupNameB, dupNameA] ∧
    sortByNameUsingTrie
        (Course.addStudent (Course.addStudent Course.empty dupNameA) dupNameB)
      ≠ [dupNameA, dupNameB] := by
  refine ⟨by decide, by decide, ?_, ?_⟩
  · rw [sortByName_eq_foldl]
    decide
  · rw [sortByName_eq_foldl]
    decide

/-- C2 (amended): for every insertion sequence, the records holding any
fixed normalized name come out of `sortByNameUsingTrie` in the REVERSE
of their insertion order (most recently added first, no secondary key),
since `operator+=` prepends and the trie preserves its own insertion
order at each terminal node. -/
theorem claimC2_amended (L : List Student) (k : List Nat) :
    (sortByNameUsingTrie (L.foldl Course.addStudent Course.empty)).filter
        (fun s => decide (normName s = k))
      = (L.filter (fun s => decide (normName s = k))).reverse := by
  rw [sortByName_filter]
  rw [buildCourse_eq_reverse L Course.empty]
  rw [show Course.empty = ([] : List Student) from rfl, List.append_nil]
  rw [List.filter_reverse]

/-- C3 (counterexample): on a snapshot holding two distinct records with
the same identity "R1", one application of `quickSortRoll` swaps them
(the Hoare partition exchanges equal elements), so a second application
swaps them back: applying the sort twice does not reproduce the result
of applying it once. -/
theorem claimC3_counterexample :
    quickSortRoll (quickSortRoll [dupRollA, dupRollB] 0
        (([dupRollA, dupRollB].length : Int) - 1)) 0
        (([dupRollA, dupRollB].length : Int) - 1)
      ≠ quickSortRoll [dupRollA, dupRollB] 0 (([dupRollA, dupRollB].length : Int) - 1) := by
  have hl : (([dupRollA, dupRollB].length : Int) - 1) = 1 := by norm_num
  rw [hl]
  rw [quickSortRoll_pair_eqroll dupRollA dupRollB (by decide)]
  rw [quickSortRoll_pair_eqroll dupRollB dupRollA (by decide)]
  decide

/-- C3 (amended): on every snapshot whose identity strings are pairwise
distinct, `sortByIdentity` is idempotent: sorting the sorted array
changes nothing.  (With duplicate identities the claim fails, see the
counterexample.) -/
theorem claimC3_amended (arr : List Student)
    (hdist : List.Pairwise (fun a b => a.roll ≠ b.roll) arr) :
    quickSortRoll (quickSortRoll arr 0 ((arr.length : Int) - 1)) 0 ((arr.length : Int) - 1)
      = quickSortRoll arr 0 ((arr.length : Int) - 1) :=
  quickSortRoll_idem arr hdist

/-- C3 (witness): the amended idempotence applied to the concrete
two-record snapshot with distinct rolls "A1" and "B1". -/
theorem claimC3_witness :
    List.Pairwise (fun a b : Student => a.roll ≠ b.roll) [tieA, tieB] ∧
    quickSortRoll (quickSortRoll [tieA, tieB] 0 (([tieA, tieB].length : Int) - 1)) 0
        (([tieA, tieB].length : Int) - 1)
      = quickSortRoll [tieA, tieB] 0 (([tieA, tieB].length : Int) - 1) :=
  ⟨by decide, claimC3_amended [tieA, tieB] (by decide)⟩

/-- C4: `sortByNameUsingTrie` returns the records in non-decreasing
order of their normalized names under the 27-symbol alphabet (`a < b <
... < z <` separator, where space and every character outside the
letters fold to slot 26, compare `chIndex`), and on the demo course with
names "Amit Kumar", "Sunita Sharma", "Rahul Verma" it returns them in
the order Amit Kumar, Rahul Verma, Sunita Sharma. -/
theorem claimC4_name_sort_order :
    (∀ c : Course, List.Pairwise
      (fun a b => keyLe (normName a) (normName b) = true) (sortByNameUsingTrie c)) ∧
    sortByNameUsingTrie demoCourse = [amit, rahul, sunita] := by
  refine ⟨sortByName_sorted, ?_⟩
  rw [sortByName_eq_foldl]
  decide

/-- C5: for every snapshot, `sortByIdentity` (`quickSortRoll` over the
full array) returns a permutation of the snapshot whose identity strings
are non-decreasing under byte-wise `strcmp`. -/
theorem claimC5_sortByIdentity_perm_sorted (arr : List Student) :
    (quickSortRoll arr 0 ((arr.length : Int) - 1)).Perm arr ∧
    List.Pairwise (fun a b => strcmp a.roll b.roll ≠ .gt)
      (quickSortRoll arr 0 ((arr.length : Int) - 1)) :=
  ⟨quickSortRoll_perm arr, quickSortRoll_sorted arr⟩

/-- C6 (counterexample): the code has no distinct empty-identity error
kind: the empty string and the invalid-character string "20CS#1003" fail
with the very same `InvalidRollException`, refuting the claimed
distinction between `EmptyIdentity` and `InvalidIdentityChar`. -/
theorem claimC6_counterexample :
    validateRoll (strL ("")) = Except.error StudentError.InvalidRoll ∧
    validateRoll (strL ("20CS#1003")) = Except.error StudentError.InvalidRoll ∧
    validateRoll (strL ("")) = validateRoll (strL ("20CS#1003")) :=
  ⟨by decide, by decide, by decide⟩

/-- C6 (amended): `validateRoll` fails with the single kind
`InvalidRollException` exactly when the string is empty or contains a
character that is not alphanumeric, '/' or '-'; it succeeds otherwise;
"20CS1001" is accepted and "20CS#1003" rejected. -/
theorem claimC6_amended (s : Str) :
    (validateRoll s = .error .InvalidRoll ↔ (s = [] ∨ ∃ c ∈ s, isValidRollChar c = false)) ∧
    (validateRoll s = .ok () ↔ (s ≠ [] ∧ ∀ c ∈ s, isValidRollChar c = true)) ∧
    validateRoll (strL ("20CS1001")) = .ok () ∧
    validateRoll (strL ("20CS#1003")) = .error .InvalidRoll :=
  ⟨(validateRoll_spec s).1, (validateRoll_spec s).2, by decide, by decide⟩

/-- C7 (counterexample): "Abc1" has fewer than two whitespace-separated
tokens, yet `validateName` rejects it with `InvalidSecondNameException`
(the invalid-character error), not with the missing-second-token error:
the global character check runs before the token count, refuting the
claim's "fails with EmptyName/MissingSecondToken exactly when ... fewer
than two tokens". -/
theorem claimC7_counterexample :
    numTokens (strL ("Abc1")) < 2 ∧
    validateName (strL ("Abc1")) = Except.error StudentError.InvalidSecondName ∧
    validateName (strL ("Abc1")) ≠ Except.error StudentError.NoSecondName :=
  ⟨by decide, by decide, by decide⟩

/-- C7 (amended): `validateName` fails with `NoSecondNameException` when
the string is empty, or when all characters are valid and there are
fewer than two tokens; it fails with the single kind
`InvalidSecondNameException` when any character is not a letter, space
or hyphen (this check precedes the token count, and subsumes the
second-token check, which can never fire); it succeeds otherwise.
"SingleName" is rejected for the missing second token and "Maya Rao" is
accepted. -/
theorem claimC7_amended (s : Str) :
    validateName s = (if s = [] then Except.error StudentError.NoSecondName
      else if s.all isValidNameChar then
        (if numTokens s < 2 then Except.error StudentError.NoSecondName
         else Except.ok ())
      else Except.error StudentError.InvalidSecondName) ∧
    validateName (strL ("SingleName")) = Except.error StudentError.NoSecondName ∧
    validateName (strL ("Maya Rao")) = Except.ok () :=
  ⟨validateName_spec s, by decide, by decide⟩

/-- C8: `setName` and `setRoll` are atomic: validation and the bounded
copy run before any field changes, so on success exactly the addressed
buffer holds the whole new value and every other field is unchanged,
while on any error (validation or overflow) the record is returned
exactly as it was. -/
theorem claimC8_setters_atomic (st : Student) (nm r : Str) :
    (Student.setName st nm).1
      = (if (Student.setName st nm).2 = none then { st with name := nm } else st) ∧
    (Student.setRoll st r).1
      = (if (Student.setRoll st r).2 = none then { st with roll := r } else st) :=
  setters_atomic st nm r

/-- C9: in a course built by `operator+=` from any insertion sequence
`L1 ++ [a] ++ L2` in which no record added after `a` matches the key,
`findByRoll` and `operator()` return exactly `a` — the most recently
added matching record — because `+=` prepends and the scan starts at the
head. -/
theorem claimC9_find_most_recent (L1 L2 : List Student) (a : Student) (r : Str)
    (ha : a.roll = r) (hL2 : ∀ x ∈ L2, x.roll ≠ r) :
    Course.findByRoll ((L1 ++ a :: L2).foldl Course.addStudent Course.empty) r = some a ∧
    Course.atRoll ((L1 ++ a :: L2).foldl Course.addStudent Course.empty) r = .ok a :=
  findByRoll_latest L1 L2 a r ha hL2

/-- C9 (witness): the duplicate-roll course built by adding `dupRollA`
(roll "R1"), then `dupRollB` (also roll "R1"), then `tieA`; lookup of
"R1" returns `dupRollB`, the most recently added match. -/
theorem claimC9_witness :
    dupRollB.roll = strL ("R1") ∧
    (∀ x ∈ [tieA], x.roll ≠ strL ("R1")) ∧
    Course.findByRoll (([dupRollA] ++ dupRollB :: [tieA]).foldl Course.addStudent Course.empty)
        (strL ("R1")) = some dupRollB ∧
    Course.atRoll (([dupRollA] ++ dupRollB :: [tieA]).foldl Course.addStudent Course.empty)
        (strL ("R1")) = .ok dupRollB :=
  ⟨by decide, by decide,
    (claimC9_find_most_recent [dupRollA] [tieA] dupRollB (strL ("R1"))
      (by decide) (by decide)).1,
    (claimC9_find_most_recent [dupRollA] [tieA] dupRollB (strL ("R1"))
      (by decide) (by decide)).2⟩

/-- C10: both partition-based sorts are total functions of their inputs
— Lean accepts their recursion as well-founded (each call acts on a
strictly smaller subrange) — and for every array, range and component
they return an array of the same length. -/
theorem claimC10_sorts_total (arr : List Student) (lo hi : Int) (mc : MarkComponent) :
    (quickSortRoll arr lo hi).length = arr.length ∧
    (quickSortMarks arr lo hi mc).length = arr.length :=
  ⟨quickSortRoll_length arr lo hi, quickSortMarks_length arr lo hi mc⟩
